import Mathlib

set_option maxHeartbeats 1000000

/-!
Shallow embedding of `src/Queue.h`: a generic singly linked FIFO queue
(`Queue<T>`) with an explicit node store, a dual-purpose iterator
(`RawIterator`), and the free functions `filter` and `transform`.

Modelling conventions:
  * a `Node*` pointer is an address (`Nat`) into an explicit heap;
    `nullptr` is `none`;
  * the heap is a growing list of nodes; `delete` is modelled as
    abandoning the node (addresses are never reused), which is faithful
    for every defined-behaviour execution because the code never reads a
    node after deleting it;
  * `cap = some c` models a memory budget: allocation beyond `c` nodes
    throws `std::bad_alloc`; `cap = none` is unbounded memory;
  * functions that can throw return the post-state together with
    `Option QErr` (the queue/heap components are the object's state at
    the moment the exception escapes), or `Except QErr` for observers;
  * `m_size` is a C++ `int`, modelled as `Int`;
  * the C++ iterator loops terminate by reaching `nullptr`; the
    embedding makes them structurally total with a fuel argument set to
    `m_size`, which is exact on every well-formed queue;
  * reaching `QErr.ub` marks undefined behaviour in the C++
    (dereferencing a null or dangling pointer); it is unreachable from
    well-formed states.
-/

/-- `struct Node { T data; Node* next; }` — one linked-list cell. -/
structure Node (α : Type) where
  data : α
  next : Option Nat
deriving DecidableEq

/-- The allocator state: a store of nodes addressed by position, plus an
optional allocation budget modelling memory exhaustion. -/
structure Heap (α : Type) where
  cap : Option Nat
  nodes : List (Node α)
deriving DecidableEq

/-- Read the node at address `a` (`none` when `a` was never allocated). -/
def Heap.get (h : Heap α) (a : Nat) : Option (Node α) :=
  h.nodes[a]?

/-- `new Node(val)`: returns the extended heap and the fresh address, or
`none` for `std::bad_alloc` when the budget is exhausted. -/
def Heap.alloc (h : Heap α) (nd : Node α) : Option (Heap α × Nat) :=
  match h.cap with
  | none => some (⟨h.cap, h.nodes ++ [nd]⟩, h.nodes.length)
  | some c =>
    if h.nodes.length < c then some (⟨h.cap, h.nodes ++ [nd]⟩, h.nodes.length)
    else none

/-- `p->next = nx` for the node at address `a` (no-op on an unallocated
address, which is undefined behaviour in the C++ and unreachable from
well-formed states). -/
def Heap.setNext (h : Heap α) (a : Nat) (nx : Option Nat) : Heap α :=
  match h.nodes[a]? with
  | some nd => ⟨h.cap, h.nodes.set a ⟨nd.data, nx⟩⟩
  | none => h

/-- Write `v` into the `data` field of the node at address `a` (models a
store through a `T&` obtained from the iterator). -/
def Heap.setData (h : Heap α) (a : Nat) (v : α) : Heap α :=
  match h.nodes[a]? with
  | some nd => ⟨h.cap, h.nodes.set a ⟨v, nd.next⟩⟩
  | none => h

/-- The exceptions the code can throw. `badAlloc` is `std::bad_alloc`,
`emptyQueue` is `Queue<T>::EmptyQueue`, `invalidOperation` is
`RawIterator::InvalidOperation`; `ub` marks undefined behaviour in the
C++ (null/dangling dereference), unreachable from well-formed states. -/
inductive QErr where
  | badAlloc
  | emptyQueue
  | invalidOperation
  | ub
deriving DecidableEq

/-- `Queue<T>`: front pointer, rear pointer and element count, exactly
the three data members `m_front`, `m_rear`, `m_size`. -/
structure Queue (α : Type) where
  m_front : Option Nat
  m_rear : Option Nat
  m_size : Int
deriving DecidableEq

/-- The default constructor `Queue()`: `m_front = m_rear = nullptr`,
`m_size = 0`. -/
def Queue.mkEmpty : Queue α :=
  ⟨none, none, 0⟩

/-- `int Queue<T>::size() const { return m_size; }` -/
def Queue.size (q : Queue α) : Int :=
  q.m_size

/-- `void Queue<T>::pushBack(const T& val)`: allocate a node, then link
it as the new rear (or as both front and rear when the queue is empty).
Returns the post-state and the escaping exception, if any. -/
def Queue.pushBack (h : Heap α) (q : Queue α) (v : α) :
    Heap α × Queue α × Option QErr :=
  match h.alloc ⟨v, none⟩ with
  | none => (h, q, some .badAlloc)
  | some (h1, a) =>
    if q.m_size = 0 then
      (h1, ⟨some a, some a, q.m_size + 1⟩, none)
    else
      match q.m_rear with
      | some r => (h1.setNext r (some a), ⟨q.m_front, some a, q.m_size + 1⟩, none)
      | none => (h1, q, some .ub)

/-- `T& Queue<T>::front()`: throws `EmptyQueue` when `m_size == 0`,
otherwise reads `m_front->data`. -/
def Queue.front (h : Heap α) (q : Queue α) : Except QErr α :=
  if q.m_size = 0 then .error .emptyQueue
  else
    match q.m_front with
    | some a =>
      match h.get a with
      | some nd => .ok nd.data
      | none => .error .ub
    | none => .error .ub

/-- `const T& Queue<T>::front() const` — the const overload, with the
same body as the non-const one. -/
def Queue.frontConst (h : Heap α) (q : Queue α) : Except QErr α :=
  if q.m_size = 0 then .error .emptyQueue
  else
    match q.m_front with
    | some a =>
      match h.get a with
      | some nd => .ok nd.data
      | none => .error .ub
    | none => .error .ub

/-- `void Queue<T>::popFront()`: throws `EmptyQueue` when `m_size == 0`;
otherwise advances `m_front` to `m_front->next`, deletes the old front
node and decrements `m_size`. Note the C++ does not touch `m_rear`. -/
def Queue.popFront (h : Heap α) (q : Queue α) :
    Heap α × Queue α × Option QErr :=
  if q.m_size = 0 then (h, q, some .emptyQueue)
  else
    match q.m_front with
    | some a =>
      match h.get a with
      | some nd => (h, ⟨nd.next, q.m_rear, q.m_size - 1⟩, none)
      | none => (h, q, some .ub)
    | none => (h, q, some .ub)

/-- `RawIterator`: a pointer to the queue it came from (`m_ptr`, the
`const Queue*`) and the current node (`m_currentNode`). The const and
non-const instantiations have identical state and identical operation
bodies, so a single Lean type models both. -/
structure RawIterator (α : Type) where
  m_ptr : Nat
  m_currentNode : Option Nat
deriving DecidableEq

/-- `Queue<T>::begin()`: `Iterator(this, m_front)`. `self` is the
address of the queue object (the value of `this`). -/
def Queue.beginIt (self : Nat) (q : Queue α) : RawIterator α :=
  ⟨self, q.m_front⟩

/-- `Queue<T>::end()`: `Iterator(this, nullptr)`. -/
def Queue.endIt (self : Nat) (_q : Queue α) : RawIterator α :=
  ⟨self, none⟩

/-- `Modified_Type& RawIterator::operator*() const`: throws
`InvalidOperation` at the past-the-end sentinel, otherwise returns the
current node's data. -/
def RawIterator.deref (h : Heap α) (it : RawIterator α) : Except QErr α :=
  match it.m_currentNode with
  | none => .error .invalidOperation
  | some a =>
    match h.get a with
    | some nd => .ok nd.data
    | none => .error .ub

/-- `RawIterator& RawIterator::operator++()` (the pre-increment form):
throws `InvalidOperation` at the sentinel, otherwise advances to
`m_currentNode->next` and returns the advanced iterator. -/
def RawIterator.inc (h : Heap α) (it : RawIterator α) :
    Except QErr (RawIterator α) :=
  match it.m_currentNode with
  | none => .error .invalidOperation
  | some a =>
    match h.get a with
    | some nd => .ok ⟨it.m_ptr, nd.next⟩
    | none => .error .ub

/-- `RawIterator RawIterator::operator++(int)` (the post-increment
form): throws `InvalidOperation` at the sentinel, otherwise returns the
pair (copy of the iterator before the step, iterator after the step). -/
def RawIterator.incPost (h : Heap α) (it : RawIterator α) :
    Except QErr (RawIterator α × RawIterator α) :=
  match it.m_currentNode with
  | none => .error .invalidOperation
  | some a =>
    match h.get a with
    | some nd => .ok (it, ⟨it.m_ptr, nd.next⟩)
    | none => .error .ub

/-- `bool RawIterator::operator!=(const RawIterator&) const`:
`!(m_currentNode == other.m_currentNode)` — it compares only the
current-node pointers and ignores `m_ptr`. -/
def RawIterator.ne (it other : RawIterator α) : Bool :=
  !(it.m_currentNode == other.m_currentNode)

/-- The iteration protocol of the half-open range `[it, stop)` as the
range-`for` loops in the source use it: while `it != stop`, read `*it`
into the output and `++it`. Fuel makes it total; `none` means the fuel
ran out or an operation threw. -/
def iterCollect (h : Heap α) : Nat → RawIterator α → RawIterator α → Option (List α)
  | 0, it, stop => if it.ne stop then none else some []
  | fuel + 1, it, stop =>
    if it.ne stop then
      match it.deref h, it.inc h with
      | .ok v, .ok it' => (iterCollect h fuel it' stop).map (v :: ·)
      | _, _ => none
    else some []

/-- The loop body of the copy constructor
`for (ConstIterator iter = other.begin(); iter != other.end(); ++iter)
pushBack(*iter);` with fuel. On `bad_alloc` the constructor destroys the
partial chain (a heap no-op in this model) and rethrows. -/
def copyLoop (h : Heap α) :
    Nat → RawIterator α → RawIterator α → Queue α →
    Heap α × Queue α × Option QErr
  | 0, iter, stop, acc =>
    if iter.ne stop then (h, acc, some .ub) else (h, acc, none)
  | fuel + 1, iter, stop, acc =>
    if iter.ne stop then
      match iter.deref h with
      | .ok v =>
        match Queue.pushBack h acc v with
        | (h1, acc1, none) =>
          match iter.inc h1 with
          | .ok iter' => copyLoop h1 fuel iter' stop acc1
          | .error e => (h1, acc1, some e)
        | (h1, acc1, some e) => (h1, acc1, some e)
      | .error e => (h, acc, some e)
    else (h, acc, none)

/-- `Queue<T>::Queue(const Queue& other)`: start from the
default-constructed state and push every element of `other` in order.
The fuel `other.m_size` is exact on every well-formed queue. -/
def Queue.copyCtor (h : Heap α) (other : Queue α) :
    Heap α × Queue α × Option QErr :=
  copyLoop h other.m_size.toNat (other.beginIt 0) (other.endIt 0) Queue.mkEmpty

/-- `Queue<T>& Queue<T>::operator=(const Queue& other)` in the
`this != &other` case: build `Queue<T> temp(other)` and, only on
success, swap `m_front`/`m_rear`/`m_size` with `temp` (the old chain
dies with `temp`, a heap no-op here). If the copy throws, the swap never
runs and the target keeps its state. The `this == &other` short-circuit
returns with no state change at all and cannot be expressed on values,
so only the interesting branch is modelled. -/
def Queue.assignFrom (h : Heap α) (target source : Queue α) :
    Heap α × Queue α × Option QErr :=
  match Queue.copyCtor h source with
  | (h1, _, some e) => (h1, target, some e)
  | (h1, temp, none) => (h1, temp, none)

/-- `filter`'s loop: range-`for` over `[iter, stop)` pushing the
elements that satisfy `predict` onto the accumulator queue. -/
def filterLoop (h : Heap α) (predict : α → Bool) :
    Nat → RawIterator α → RawIterator α → Queue α →
    Heap α × Queue α × Option QErr
  | 0, iter, stop, acc =>
    if iter.ne stop then (h, acc, some .ub) else (h, acc, none)
  | fuel + 1, iter, stop, acc =>
    if iter.ne stop then
      match iter.deref h with
      | .ok v =>
        if predict v then
          match Queue.pushBack h acc v with
          | (h1, acc1, none) =>
            match iter.inc h1 with
            | .ok iter' => filterLoop h1 predict fuel iter' stop acc1
            | .error e => (h1, acc1, some e)
          | (h1, acc1, some e) => (h1, acc1, some e)
        else
          match iter.inc h with
          | .ok iter' => filterLoop h predict fuel iter' stop acc
          | .error e => (h, acc, some e)
      | .error e => (h, acc, some e)
    else (h, acc, none)

/-- `Queue<T> filter(const Queue<T>& queue, FuncType predict)`. -/
def filter (h : Heap α) (queue : Queue α) (predict : α → Bool) :
    Heap α × Queue α × Option QErr :=
  filterLoop h predict queue.m_size.toNat (queue.beginIt 0) (queue.endIt 0)
    Queue.mkEmpty

/-- `transform`'s loop: range-`for` over `[iter, stop)` with a mutable
reference, `transformer(data)` — modelled as storing `transformer v`
back through the current node. -/
def mapLoop (h : Heap α) (transformer : α → α) :
    Nat → RawIterator α → RawIterator α → Heap α × Option QErr
  | 0, iter, _stop => if iter.ne _stop then (h, some .ub) else (h, none)
  | fuel + 1, iter, stop =>
    if iter.ne stop then
      match iter.m_currentNode with
      | some a =>
        match h.get a with
        | some nd =>
          let h1 := h.setData a (transformer nd.data)
          match iter.inc h1 with
          | .ok iter' => mapLoop h1 transformer fuel iter' stop
          | .error e => (h1, some e)
        | none => (h, some .ub)
      | none => (h, some .ub)
    else (h, none)

/-- `void transform(Queue<T>& queue, FuncType transformer)`: copy the
queue into `transformed`, map every element of the copy in place, then
assign the copy back (`queue = transformed`, never self-assignment since
`transformed` is a distinct object). Exceptions escape with `queue`
untouched. -/
def transform (h : Heap α) (queue : Queue α) (transformer : α → α) :
    Heap α × Queue α × Option QErr :=
  match Queue.copyCtor h queue with
  | (h1, _, some e) => (h1, queue, some e)
  | (h1, transformed, none) =>
    match mapLoop h1 transformer transformed.m_size.toNat
        (transformed.beginIt 0) (transformed.endIt 0) with
    | (h2, some e) => (h2, queue, some e)
    | (h2, none) => Queue.assignFrom h2 queue transformed

/-- Observation: read the element sequence front-to-back by chasing
`next` pointers for `m_size` steps. -/
def chaseData (h : Heap α) : Nat → Option Nat → List α
  | 0, _ => []
  | _ + 1, none => []
  | fuel + 1, some a =>
    match h.get a with
    | none => []
    | some nd => nd.data :: chaseData h fuel nd.next

/-- Observable front-to-back element sequence of a queue. -/
def Queue.toList (h : Heap α) (q : Queue α) : List α :=
  chaseData h q.m_size.toNat q.m_front

/-- `pushBack` a whole list of values in order, stopping at the first
exception. -/
def pushAll (h : Heap α) (q : Queue α) : List α → Heap α × Queue α × Option QErr
  | [] => (h, q, none)
  | v :: vs =>
    match Queue.pushBack h q v with
    | (h1, q1, none) => pushAll h1 q1 vs
    | r => r

/-- `popFront` `k` times, stopping at the first exception. -/
def popK (h : Heap α) (q : Queue α) : Nat → Heap α × Queue α × Option QErr
  | 0 => (h, q, none)
  | k + 1 =>
    match Queue.popFront h q with
    | (h1, q1, none) => popK h1 q1 k
    | r => r

/-- A mutation step usable on a queue: the two mutators the claims range
over. -/
inductive MOp (α : Type) where
  | push (v : α)
  | pop

/-- One mutation step: apply the mutator to the queue. -/
def mopStep (h : Heap α) (q : Queue α) : MOp α → Heap α × Queue α × Option QErr
  | .push v => Queue.pushBack h q v
  | .pop => Queue.popFront h q

/-- Run a sequence of mutations against one queue, threading the heap.
A step that throws leaves the state unchanged (both mutators are
exception-safe), so the run simply continues from that state. -/
def runMOps (h : Heap α) (q : Queue α) : List (MOp α) → Heap α × Queue α
  | [] => (h, q)
  | op :: ops =>
    let r := mopStep h q op
    runMOps r.1 r.2.1 ops

/-- Executable well-formedness of a pointer-chain segment: starting
from `p`, the addresses traversed are exactly `as`, after which the
chain continues at `stop`. -/
def isChainSeg (h : Heap α) : Option Nat → List Nat → Option Nat → Bool
  | p, [], stop => p == stop
  | p, a :: as, stop =>
    (p == some a) &&
      match h.get a with
      | none => false
      | some nd => isChainSeg h nd.next as stop

/-- Executable well-formedness of a full pointer chain: starting from
`p`, the addresses traversed are exactly `as` and the last node's
`next` is null. -/
def isChainB (h : Heap α) (p : Option Nat) (as : List Nat) : Bool :=
  isChainSeg h p as none

/-- The data stored at each address of a list, as `Option`s. -/
def dataOf (h : Heap α) (as : List Nat) : List (Option α) :=
  as.map fun a => (h.get a).map Node.data

/-- The representation invariant of a queue: `as` is the address list of
its chain and `l` its element sequence. When the queue is nonempty,
`m_rear` is the last chain address; when it is empty the code leaves
`m_rear` arbitrary (`popFront` never resets it), so nothing is required
of it. -/
def QModels (h : Heap α) (q : Queue α) (as : List Nat) (l : List α) : Prop :=
  isChainB h q.m_front as = true ∧
  (as ≠ [] → q.m_rear = as.getLast?) ∧
  q.m_size = (as.length : Int) ∧
  as.Nodup ∧
  dataOf h as = l.map some

/-! ### Basic heap lemmas -/

theorem Heap.get_lt_length {h : Heap α} {a : Nat} {nd : Node α}
    (hg : h.get a = some nd) : a < h.nodes.length := by
  by_contra hlt
  rw [Heap.get, List.getElem?_eq_none (Nat.le_of_not_lt hlt)] at hg
  exact Option.noConfusion hg

theorem Heap.alloc_eq {h : Heap α} {nd : Node α} {h' : Heap α} {a : Nat}
    (hal : h.alloc nd = some (h', a)) :
    h' = ⟨h.cap, h.nodes ++ [nd]⟩ ∧ a = h.nodes.length := by
  unfold Heap.alloc at hal
  split at hal
  · simp only [Option.some.injEq, Prod.mk.injEq] at hal
    exact ⟨hal.1.symm, hal.2.symm⟩
  · split at hal
    · simp only [Option.some.injEq, Prod.mk.injEq] at hal
      exact ⟨hal.1.symm, hal.2.symm⟩
    · exact Option.noConfusion hal

theorem Heap.alloc_of_cap_none {h : Heap α} {nd : Node α} (hc : h.cap = none) :
    h.alloc nd = some (⟨h.cap, h.nodes ++ [nd]⟩, h.nodes.length) := by
  unfold Heap.alloc
  rw [hc]

theorem Heap.get_alloc_old {h h' : Heap α} {nd : Node α} {a b : Nat}
    (hal : h.alloc nd = some (h', a)) (hb : b < h.nodes.length) :
    h'.get b = h.get b := by
  obtain ⟨rfl, -⟩ := Heap.alloc_eq hal
  simp [Heap.get, List.getElem?_append, hb]

theorem Heap.get_alloc_fresh {h h' : Heap α} {nd : Node α} {a : Nat}
    (hal : h.alloc nd = some (h', a)) : h'.get a = some nd := by
  obtain ⟨rfl, rfl⟩ := Heap.alloc_eq hal
  simp [Heap.get]

theorem Heap.alloc_cap {h h' : Heap α} {nd : Node α} {a : Nat}
    (hal : h.alloc nd = some (h', a)) : h'.cap = h.cap := by
  obtain ⟨rfl, -⟩ := Heap.alloc_eq hal
  rfl

theorem Heap.alloc_length {h h' : Heap α} {nd : Node α} {a : Nat}
    (hal : h.alloc nd = some (h', a)) :
    h'.nodes.length = h.nodes.length + 1 := by
  obtain ⟨rfl, -⟩ := Heap.alloc_eq hal
  simp

theorem Heap.setNext_get_self {h : Heap α} {a : Nat} {nd : Node α} {nx : Option Nat}
    (hg : h.get a = some nd) : (h.setNext a nx).get a = some ⟨nd.data, nx⟩ := by
  have hlt : a < h.nodes.length := Heap.get_lt_length hg
  rw [Heap.get] at hg
  unfold Heap.setNext
  rw [hg]
  simp [Heap.get, List.getElem?_set_self hlt]

theorem Heap.setNext_get_ne {h : Heap α} {a b : Nat} {nx : Option Nat}
    (hb : b ≠ a) : (h.setNext a nx).get b = h.get b := by
  unfold Heap.setNext
  cases hg : h.nodes[a]? with
  | none => rfl
  | some nd => simp [Heap.get, List.getElem?_set_ne (Ne.symm hb)]

theorem Heap.setNext_cap {h : Heap α} {a : Nat} {nx : Option Nat} :
    (h.setNext a nx).cap = h.cap := by
  unfold Heap.setNext
  split <;> rfl

theorem Heap.setNext_length {h : Heap α} {a : Nat} {nx : Option Nat} :
    (h.setNext a nx).nodes.length = h.nodes.length := by
  unfold Heap.setNext
  split <;> simp

theorem Heap.setData_get_self {h : Heap α} {a : Nat} {nd : Node α} {v : α}
    (hg : h.get a = some nd) : (h.setData a v).get a = some ⟨v, nd.next⟩ := by
  have hlt : a < h.nodes.length := Heap.get_lt_length hg
  rw [Heap.get] at hg
  unfold Heap.setData
  rw [hg]
  simp [Heap.get, List.getElem?_set_self hlt]

theorem Heap.setData_get_ne {h : Heap α} {a b : Nat} {v : α}
    (hb : b ≠ a) : (h.setData a v).get b = h.get b := by
  unfold Heap.setData
  cases hg : h.nodes[a]? with
  | none => rfl
  | some nd => simp [Heap.get, List.getElem?_set_ne (Ne.symm hb)]

theorem Heap.setData_cap {h : Heap α} {a : Nat} {v : α} :
    (h.setData a v).cap = h.cap := by
  unfold Heap.setData
  split <;> rfl

theorem Heap.setData_length {h : Heap α} {a : Nat} {v : α} :
    (h.setData a v).nodes.length = h.nodes.length := by
  unfold Heap.setData
  split <;> simp

/-! ### Chain lemmas -/

theorem isChainSeg_nil {h : Heap α} {p stop : Option Nat} :
    isChainSeg h p [] stop = true ↔ p = stop := by
  simp [isChainSeg]

theorem isChainSeg_cons {h : Heap α} {p stop : Option Nat} {a : Nat} {as : List Nat} :
    isChainSeg h p (a :: as) stop = true ↔
      p = some a ∧ ∃ nd, h.get a = some nd ∧ isChainSeg h nd.next as stop = true := by
  simp only [isChainSeg, Bool.and_eq_true, beq_iff_eq]
  constructor
  · rintro ⟨rfl, hrest⟩
    cases hg : h.get a with
    | none => rw [hg] at hrest; exact absurd hrest (by simp)
    | some nd => rw [hg] at hrest; exact ⟨rfl, nd, rfl, hrest⟩
  · rintro ⟨rfl, nd, hg, hrest⟩
    rw [hg]
    exact ⟨rfl, hrest⟩

theorem isChainSeg_mem_get {h : Heap α} :
    ∀ {as : List Nat} {p stop : Option Nat} {a : Nat},
      isChainSeg h p as stop = true → a ∈ as → ∃ nd, h.get a = some nd := by
  intro as
  induction as with
  | nil => intro p stop a _ hmem; exact absurd hmem (List.not_mem_nil a)
  | cons b bs ih =>
    intro p stop a hseg hmem
    obtain ⟨rfl, nd, hg, hrest⟩ := isChainSeg_cons.mp hseg
    rcases List.mem_cons.mp hmem with rfl | hmem'
    · exact ⟨nd, hg⟩
    · exact ih hrest hmem'

theorem isChainSeg_mem_lt {h : Heap α} {as : List Nat} {p stop : Option Nat}
    (hseg : isChainSeg h p as stop = true) :
    ∀ a ∈ as, a < h.nodes.length := by
  intro a hmem
  obtain ⟨nd, hg⟩ := isChainSeg_mem_get hseg hmem
  exact Heap.get_lt_length hg

theorem isChainSeg_frame {h h' : Heap α} :
    ∀ {as : List Nat} {p stop : Option Nat},
      (∀ a ∈ as, h'.get a = h.get a) →
      isChainSeg h p as stop = true → isChainSeg h' p as stop = true := by
  intro as
  induction as with
  | nil => intro p stop _ hseg; exact hseg
  | cons b bs ih =>
    intro p stop hagree hseg
    obtain ⟨rfl, nd, hg, hrest⟩ := isChainSeg_cons.mp hseg
    refine isChainSeg_cons.mpr ⟨rfl, nd, ?_, ?_⟩
    · rw [hagree b (List.mem_cons_self b bs)]; exact hg
    · exact ih (fun a ha => hagree a (List.mem_cons_of_mem b ha)) hrest

theorem isChainSeg_append {h : Heap α} :
    ∀ {as : List Nat} {bs : List Nat} {p mid stop : Option Nat},
      isChainSeg h p as mid = true → isChainSeg h mid bs stop = true →
      isChainSeg h p (as ++ bs) stop = true := by
  intro as
  induction as with
  | nil =>
    intro bs p mid stop h1 h2
    rw [isChainSeg_nil.mp h1]
    exact h2
  | cons a t ih =>
    intro bs p mid stop h1 h2
    obtain ⟨rfl, nd, hg, hrest⟩ := isChainSeg_cons.mp h1
    exact isChainSeg_cons.mpr ⟨rfl, nd, hg, ih hrest h2⟩

theorem isChainSeg_retarget {h : Heap α} {nx : Option Nat} :
    ∀ {as : List Nat} {p : Option Nat} {r : Nat},
      isChainSeg h p as none = true → as.Nodup → as.getLast? = some r →
      isChainSeg (h.setNext r nx) p as nx = true := by
  intro as
  induction as with
  | nil => intro p r _ _ hlast; exact absurd hlast (by simp)
  | cons a t ih =>
    intro p r hseg hnd hlast
    obtain ⟨rfl, nd, hg, hrest⟩ := isChainSeg_cons.mp hseg
    cases t with
    | nil =>
      have hra : a = r := by simpa using hlast
      subst hra
      have hnext : nd.next = none := isChainSeg_nil.mp hrest
      refine isChainSeg_cons.mpr ⟨rfl, ⟨nd.data, nx⟩, Heap.setNext_get_self hg, ?_⟩
      exact isChainSeg_nil.mpr rfl
    | cons b t' =>
      have hlast' : (b :: t').getLast? = some r := by
        rwa [List.getLast?_cons_cons] at hlast
      have hrmem : r ∈ b :: t' := List.mem_of_mem_getLast? hlast'
      have hane : a ≠ r := by
        intro hra
        exact (List.nodup_cons.mp hnd).1 (hra ▸ hrmem)
      refine isChainSeg_cons.mpr ⟨rfl, nd, ?_, ?_⟩
      · rw [Heap.setNext_get_ne hane]; exact hg
      · exact ih hrest (List.nodup_cons.mp hnd).2 hlast'

/-! ### dataOf lemmas -/

theorem dataOf_nil {h : Heap α} : dataOf h [] = [] := rfl

theorem dataOf_cons {h : Heap α} {a : Nat} {as : List Nat} :
    dataOf h (a :: as) = (h.get a).map Node.data :: dataOf h as := rfl

theorem dataOf_append {h : Heap α} {as bs : List Nat} :
    dataOf h (as ++ bs) = dataOf h as ++ dataOf h bs := by
  simp [dataOf]

theorem dataOf_congr {h h' : Heap α} {as : List Nat}
    (hagree : ∀ a ∈ as, (h'.get a).map Node.data = (h.get a).map Node.data) :
    dataOf h' as = dataOf h as :=
  List.map_congr_left hagree

theorem dataOf_frame {h h' : Heap α} {as : List Nat}
    (hagree : ∀ a ∈ as, h'.get a = h.get a) :
    dataOf h' as = dataOf h as :=
  dataOf_congr fun a ha => by rw [hagree a ha]

theorem dataOf_length {h : Heap α} {as : List Nat} :
    (dataOf h as).length = as.length := by
  simp [dataOf]

/-! ### Representation-invariant lemmas -/

theorem qmodels_mkEmpty (h : Heap α) : QModels h Queue.mkEmpty [] [] := by
  refine ⟨?_, ?_, ?_, ?_, ?_⟩ <;>
    simp [Queue.mkEmpty, isChainB, isChainSeg, dataOf]

theorem QModels.length_eq {h : Heap α} {q : Queue α} {as : List Nat} {l : List α}
    (hm : QModels h q as l) : l.length = as.length := by
  have := congrArg List.length hm.2.2.2.2
  simp [dataOf_length] at this
  omega

theorem QModels.toNat_size {h : Heap α} {q : Queue α} {as : List Nat} {l : List α}
    (hm : QModels h q as l) : q.m_size.toNat = as.length := by
  rw [hm.2.2.1]
  exact Int.toNat_natCast as.length

theorem QModels.frame {h h' : Heap α} {q : Queue α} {as : List Nat} {l : List α}
    (hagree : ∀ a ∈ as, h'.get a = h.get a) (hm : QModels h q as l) :
    QModels h' q as l := by
  obtain ⟨hc, hr, hs, hn, hd⟩ := hm
  exact ⟨isChainSeg_frame hagree hc, hr, hs, hn, (dataOf_frame hagree).trans hd⟩

theorem QModels.mem_lt {h : Heap α} {q : Queue α} {as : List Nat} {l : List α}
    (hm : QModels h q as l) : ∀ a ∈ as, a < h.nodes.length :=
  isChainSeg_mem_lt hm.1

/-! ### Operation specifications against the representation invariant -/

theorem isChainB_eq {h : Heap α} {p : Option Nat} {as : List Nat} :
    isChainB h p as = isChainSeg h p as none := rfl

theorem pushBack_spec {h : Heap α} {q : Queue α} {as : List Nat} {l : List α} {v : α}
    (hm : QModels h q as l) :
    (h.alloc ⟨v, none⟩ = none ∧ Queue.pushBack h q v = (h, q, some .badAlloc)) ∨
    (∃ h' q', Queue.pushBack h q v = (h', q', none) ∧
      QModels h' q' (as ++ [h.nodes.length]) (l ++ [v]) ∧
      h'.cap = h.cap ∧ h'.nodes.length = h.nodes.length + 1 ∧
      (∀ b, b < h.nodes.length → b ∉ as → h'.get b = h.get b)) := by
  obtain ⟨hc, hr, hs, hn, hd⟩ := hm
  rw [isChainB_eq] at hc
  cases hal : h.alloc ⟨v, none⟩ with
  | none =>
    left
    refine ⟨rfl, ?_⟩
    unfold Queue.pushBack
    rw [hal]
  | some pr =>
    obtain ⟨h1, a0⟩ := pr
    have hcap1 : h1.cap = h.cap := Heap.alloc_cap hal
    have hlen1 : h1.nodes.length = h.nodes.length + 1 := Heap.alloc_length hal
    have ha0 : a0 = h.nodes.length := (Heap.alloc_eq hal).2
    right
    by_cases hsz : q.m_size = 0
    · have hasnil : as = [] := by
        rw [hsz] at hs
        have : as.length = 0 := by exact_mod_cast hs.symm
        exact List.length_eq_zero.mp this
      subst hasnil
      have hlnil : l = [] := by
        have : ([] : List (Option α)) = l.map some := hd
        cases l with
        | nil => rfl
        | cons x xs => exact absurd this (by simp)
      subst hlnil
      refine ⟨h1, ⟨some a0, some a0, q.m_size + 1⟩, ?_, ?_, hcap1, hlen1, ?_⟩
      · unfold Queue.pushBack
        rw [hal]
        simp [hsz]
      · subst ha0
        refine ⟨?_, ?_, ?_, ?_, ?_⟩
        · rw [isChainB_eq]
          exact isChainSeg_cons.mpr
            ⟨rfl, ⟨v, none⟩, Heap.get_alloc_fresh hal, isChainSeg_nil.mpr rfl⟩
        · intro _
          rfl
        · rw [hsz]
          simp
        · simp
        · simp [dataOf_cons, Heap.get_alloc_fresh hal, dataOf_nil]
      · intro b hb _
        exact Heap.get_alloc_old hal hb
    · have hasne : as ≠ [] := by
        intro hnil
        subst hnil
        simp at hs
        exact hsz hs
      have hgl : as.getLast? = some (as.getLast hasne) := List.getLast?_eq_getLast as hasne
      set r := as.getLast hasne with hrdef
      have hrear : q.m_rear = some r := by rw [hr hasne, hgl]
      have hrmem : r ∈ as := List.getLast_mem hasne
      have hmemlt : ∀ a ∈ as, a < h.nodes.length := isChainSeg_mem_lt hc
      have ha0nin : a0 ∉ as := by
        intro hmem
        have := hmemlt a0 hmem
        omega
      have hagree1 : ∀ a ∈ as, h1.get a = h.get a := fun a ha =>
        Heap.get_alloc_old hal (hmemlt a ha)
      obtain ⟨ndr, hgr⟩ := isChainSeg_mem_get hc hrmem
      have hgr1 : h1.get r = some ndr := by rw [hagree1 r hrmem]; exact hgr
      set h2 := h1.setNext r (some a0) with hh2def
      have hfresh1 : h1.get a0 = some ⟨v, none⟩ := Heap.get_alloc_fresh hal
      have hra0 : a0 ≠ r := by
        intro he
        exact ha0nin (he ▸ hrmem)
      have hfresh2 : h2.get a0 = some ⟨v, none⟩ := by
        rw [hh2def, Heap.setNext_get_ne hra0]
        exact hfresh1
      refine ⟨h2, ⟨q.m_front, some a0, q.m_size + 1⟩, ?_, ?_, ?_, ?_, ?_⟩
      · unfold Queue.pushBack
        rw [hal]
        simp only [hsz, if_false]
        rw [hrear]
      · refine ⟨?_, ?_, ?_, ?_, ?_⟩
        · rw [isChainB_eq, ← ha0]
          have step1 : isChainSeg h1 q.m_front as none = true :=
            isChainSeg_frame hagree1 hc
          have step2 : isChainSeg h2 q.m_front as (some a0) = true :=
            isChainSeg_retarget step1 hn hgl
          have step3 : isChainSeg h2 (some a0) [a0] none = true :=
            isChainSeg_cons.mpr ⟨rfl, ⟨v, none⟩, hfresh2, isChainSeg_nil.mpr rfl⟩
          exact isChainSeg_append step2 step3
        · intro _
          simp [ha0]
        · rw [hs]
          push_cast
          simp
        · have hnin : h.nodes.length ∉ as := ha0 ▸ ha0nin
          simp only [List.nodup_append, List.nodup_singleton, true_and, and_true]
          refine ⟨hn, ?_⟩
          intro a ha hmem
          simp only [List.mem_singleton] at hmem
          exact hnin (hmem ▸ ha)
        · rw [dataOf_append]
          have hdata2 : dataOf h2 as = dataOf h as := by
            apply dataOf_congr
            intro a ha
            by_cases har : a = r
            · subst har
              rw [hh2def, Heap.setNext_get_self hgr1, hgr]
              rfl
            · rw [hh2def, Heap.setNext_get_ne har, hagree1 a ha]
          rw [hdata2, hd, ← ha0]
          simp [dataOf_cons, dataOf_nil, hfresh2]
      · rw [hh2def, Heap.setNext_cap, hcap1]
      · rw [hh2def, Heap.setNext_length, hlen1]
      · intro b hb hbnin
        have hbr : b ≠ r := fun he => hbnin (he ▸ hrmem)
        rw [hh2def, Heap.setNext_get_ne hbr]
        exact Heap.get_alloc_old hal hb

theorem pushBack_ok {h : Heap α} {q : Queue α} {as : List Nat} {l : List α} {v : α}
    (hm : QModels h q as l) (hcap : h.cap = none) :
    ∃ h' q', Queue.pushBack h q v = (h', q', none) ∧
      QModels h' q' (as ++ [h.nodes.length]) (l ++ [v]) ∧
      h'.cap = h.cap ∧ h'.nodes.length = h.nodes.length + 1 ∧
      (∀ b, b < h.nodes.length → b ∉ as → h'.get b = h.get b) := by
  rcases pushBack_spec (v := v) hm with ⟨hfail, -⟩ | hok
  · rw [Heap.alloc_of_cap_none hcap] at hfail
    exact Option.noConfusion hfail
  · exact hok

theorem popFront_of_size_zero {h : Heap α} {q : Queue α} (hsz : q.m_size = 0) :
    Queue.popFront h q = (h, q, some .emptyQueue) := by
  unfold Queue.popFront
  simp [hsz]

theorem front_of_size_zero {h : Heap α} {q : Queue α} (hsz : q.m_size = 0) :
    Queue.front h q = .error .emptyQueue := by
  unfold Queue.front
  simp [hsz]

theorem frontConst_of_size_zero {h : Heap α} {q : Queue α} (hsz : q.m_size = 0) :
    Queue.frontConst h q = .error .emptyQueue := by
  unfold Queue.frontConst
  simp [hsz]

theorem popFront_cons {h : Heap α} {q : Queue α} {a : Nat} {as' : List Nat} {l : List α}
    (hm : QModels h q (a :: as') l) :
    ∃ v l' q', l = v :: l' ∧
      Queue.popFront h q = (h, q', none) ∧
      QModels h q' as' l' ∧
      q'.m_rear = q.m_rear ∧ q'.m_size = q.m_size - 1 ∧
      Queue.front h q = .ok v ∧ Queue.frontConst h q = .ok v := by
  obtain ⟨hc, hr, hs, hn, hd⟩ := hm
  rw [isChainB_eq] at hc
  obtain ⟨hfr, nd, hg, hrest⟩ := isChainSeg_cons.mp hc
  cases l with
  | nil => exact absurd hd (by simp [dataOf_cons])
  | cons v l' =>
    rw [dataOf_cons, hg, List.map_cons] at hd
    have hv : nd.data = v := by
      have := (List.cons.injEq _ _ _ _ ▸ hd).1
      simpa using this
    have hd' : dataOf h as' = l'.map some := by
      have := (List.cons.injEq _ _ _ _ ▸ hd).2
      exact this
    have hszne : ¬ q.m_size = 0 := by
      rw [hs]
      simp only [List.length_cons]
      push_cast
      omega
    refine ⟨v, l', ⟨nd.next, q.m_rear, q.m_size - 1⟩, rfl, ?_, ?_, rfl, rfl, ?_, ?_⟩
    · simp [Queue.popFront, hszne, hfr, hg]
    · refine ⟨?_, ?_, ?_, (List.nodup_cons.mp hn).2, hd'⟩
      · rw [isChainB_eq]
        exact hrest
      · intro hne
        rw [hr (by simp)]
        cases as' with
        | nil => exact absurd rfl hne
        | cons b t => rw [List.getLast?_cons_cons]
      · rw [hs]
        push_cast
        simp
    · simp [Queue.front, hszne, hfr, hg, hv]
    · simp [Queue.frontConst, hszne, hfr, hg, hv]

theorem chaseData_spec {h : Heap α} :
    ∀ {as : List Nat} {l : List α} {cur : Option Nat},
      isChainSeg h cur as none = true → dataOf h as = l.map some →
      chaseData h as.length cur = l := by
  intro as
  induction as with
  | nil =>
    intro l cur hc hd
    have : l = [] := by
      cases l with
      | nil => rfl
      | cons x xs => exact absurd hd (by simp [dataOf_nil])
    subst this
    rw [isChainSeg_nil.mp hc]
    rfl
  | cons a t ih =>
    intro l cur hc hd
    obtain ⟨rfl, nd, hg, hrest⟩ := isChainSeg_cons.mp hc
    cases l with
    | nil => exact absurd hd (by simp [dataOf_cons])
    | cons v l' =>
      rw [dataOf_cons, hg, List.map_cons] at hd
      have hv : nd.data = v := by
        have := (List.cons.injEq _ _ _ _ ▸ hd).1
        simpa using this
      have hd' : dataOf h t = l'.map some := (List.cons.injEq _ _ _ _ ▸ hd).2
      show chaseData h (t.length + 1) (some a) = v :: l'
      simp only [chaseData, hg]
      rw [hv, ih hrest hd']

theorem QModels.toList_eq {h : Heap α} {q : Queue α} {as : List Nat} {l : List α}
    (hm : QModels h q as l) : q.toList h = l := by
  rw [Queue.toList, hm.toNat_size]
  exact chaseData_spec (isChainB_eq ▸ hm.1) hm.2.2.2.2

theorem iterCollect_spec {h : Heap α} {s u : Nat} :
    ∀ {as : List Nat} {l : List α} {cur : Option Nat},
      isChainSeg h cur as none = true → dataOf h as = l.map some →
      iterCollect h as.length ⟨s, cur⟩ ⟨u, none⟩ = some l := by
  intro as
  induction as with
  | nil =>
    intro l cur hc hd
    have : l = [] := by
      cases l with
      | nil => rfl
      | cons x xs => exact absurd hd (by simp [dataOf_nil])
    subst this
    rw [isChainSeg_nil.mp hc]
    rfl
  | cons a t ih =>
    intro l cur hc hd
    obtain ⟨rfl, nd, hg, hrest⟩ := isChainSeg_cons.mp hc
    cases l with
    | nil => exact absurd hd (by simp [dataOf_cons])
    | cons v l' =>
      rw [dataOf_cons, hg, List.map_cons] at hd
      have hv : nd.data = v := by
        have := (List.cons.injEq _ _ _ _ ▸ hd).1
        simpa using this
      have hd' : dataOf h t = l'.map some := (List.cons.injEq _ _ _ _ ▸ hd).2
      show iterCollect h (t.length + 1) ⟨s, some a⟩ ⟨u, none⟩ = some (v :: l')
      have hne : RawIterator.ne (α := α) ⟨s, some a⟩ ⟨u, none⟩ = true := by
        simp [RawIterator.ne]
      have hstep : iterCollect h (t.length + 1) ⟨s, some a⟩ ⟨u, none⟩ =
          (iterCollect h t.length ⟨s, nd.next⟩ ⟨u, none⟩).map (nd.data :: ·) := by
        simp [iterCollect, hne, RawIterator.deref, RawIterator.inc, hg]
      rw [hstep, ih hrest hd']
      simp [hv]

/-! ### pushAll / popK specifications -/

theorem pushAll_ok {h : Heap α} {q : Queue α} {as : List Nat} {l : List α} :
    ∀ (vs : List α), QModels h q as l → h.cap = none →
      ∃ h' q' as', pushAll h q vs = (h', q', none) ∧
        QModels h' q' as' (l ++ vs) ∧ h'.cap = none ∧
        h.nodes.length ≤ h'.nodes.length ∧
        (∀ b, b < h.nodes.length → b ∉ as → h'.get b = h.get b) ∧
        (∀ b ∈ as', b ∈ as ∨ h.nodes.length ≤ b) := by
  intro vs
  induction vs generalizing h q as l with
  | nil =>
    intro hm hcap
    exact ⟨h, q, as, rfl, by simpa using hm, hcap, le_refl _, fun b _ _ => rfl,
      fun b hb => Or.inl hb⟩
  | cons v vs ih =>
    intro hm hcap
    obtain ⟨h1, q1, heq, hm1, hcap1, hlen1, hframe1⟩ := pushBack_ok (v := v) hm hcap
    rw [hcap] at hcap1
    obtain ⟨h', q', as', heq', hm', hcap', hlen', hframe', hnew'⟩ := ih hm1 hcap1
    refine ⟨h', q', as', ?_, ?_, hcap', by omega, ?_, ?_⟩
    · unfold pushAll
      rw [heq]
      exact heq'
    · simpa using hm'
    · intro b hb hbnin
      have hb1 : b < h1.nodes.length := by omega
      have hbnin1 : b ∉ as ++ [h.nodes.length] := by
        intro hmem
        rcases List.mem_append.mp hmem with hmem | hmem
        · exact hbnin hmem
        · simp at hmem
          omega
      rw [hframe' b hb1 hbnin1, hframe1 b hb hbnin]
    · intro b hb
      rcases hnew' b hb with hb' | hb'
      · rcases List.mem_append.mp hb' with hb'' | hb''
        · exact Or.inl hb''
        · simp at hb''
          omega
      · right
        omega

theorem popK_ok {h : Heap α} :
    ∀ {k : Nat} {as : List Nat} {l : List α} {q : Queue α},
      QModels h q as l → k ≤ as.length →
      ∃ q', popK h q k = (h, q', none) ∧
        QModels h q' (as.drop k) (l.drop k) ∧
        q'.m_size = q.m_size - k := by
  intro k
  induction k with
  | zero =>
    intro as l q hm _
    exact ⟨q, rfl, by simpa using hm, by simp⟩
  | succ k ih =>
    intro as l q hm hk
    cases as with
    | nil => simp at hk
    | cons a as' =>
      obtain ⟨v, l', q1, rfl, heq, hm1, -, hsz1, -, -⟩ := popFront_cons hm
      obtain ⟨q', heq', hm', hsz'⟩ := ih hm1 (by simpa using Nat.le_of_succ_le_succ hk)
      refine ⟨q', ?_, by simpa using hm', ?_⟩
      · unfold popK
        rw [heq]
        exact heq'
      · rw [hsz', hsz1]
        push_cast
        ring

/-! ### Claim theorems, first batch -/

/-- C1 (FIFO discipline): pushing `v1..vn` onto an initially empty queue
gives `size() = n`, iterating from `begin()` to `end()` yields exactly
`v1..vn` in order, and after any `k ≤ n` successive `popFront()` calls —
each succeeding and each decrementing the size by one — the remaining
front-to-back sequence is `drop k vs`, i.e. the pops removed
`v1, v2, ...` in FIFO order. -/
theorem c1_fifo_discipline (h0 : Heap α) (vs : List α) (k : Nat)
    (hcap : h0.cap = none) (hk : k ≤ vs.length) :
    (pushAll h0 Queue.mkEmpty vs).2.2 = none ∧
    (pushAll h0 Queue.mkEmpty vs).2.1.size = (vs.length : Int) ∧
    iterCollect (pushAll h0 Queue.mkEmpty vs).1 vs.length
      ((pushAll h0 Queue.mkEmpty vs).2.1.beginIt 0)
      ((pushAll h0 Queue.mkEmpty vs).2.1.endIt 0) = some vs ∧
    (popK (pushAll h0 Queue.mkEmpty vs).1 (pushAll h0 Queue.mkEmpty vs).2.1 k).2.2 = none ∧
    (popK (pushAll h0 Queue.mkEmpty vs).1 (pushAll h0 Queue.mkEmpty vs).2.1 k).1 =
      (pushAll h0 Queue.mkEmpty vs).1 ∧
    (popK (pushAll h0 Queue.mkEmpty vs).1 (pushAll h0 Queue.mkEmpty vs).2.1 k).2.1.size =
      (vs.length : Int) - k ∧
    Queue.toList (pushAll h0 Queue.mkEmpty vs).1
      (popK (pushAll h0 Queue.mkEmpty vs).1 (pushAll h0 Queue.mkEmpty vs).2.1 k).2.1 =
      vs.drop k := by
  obtain ⟨h', q', as', heq, hm, hcap', -, -, -⟩ :=
    pushAll_ok vs (qmodels_mkEmpty h0) hcap
  simp only [List.nil_append] at hm
  have hlen : vs.length = as'.length := hm.length_eq
  have hkas : k ≤ as'.length := by omega
  obtain ⟨q'', heq'', hm'', hsz''⟩ := popK_ok hm hkas
  have e1 : (pushAll h0 Queue.mkEmpty vs).1 = h' := by rw [heq]
  have e2 : (pushAll h0 Queue.mkEmpty vs).2.1 = q' := by rw [heq]
  have e3 : (pushAll h0 Queue.mkEmpty vs).2.2 = none := by rw [heq]
  rw [e1, e2]
  have hsize : q'.size = (vs.length : Int) := by
    rw [Queue.size, hm.2.2.1, hlen]
  refine ⟨e3, hsize, ?_, ?_, ?_, ?_, ?_⟩
  · rw [hlen]
    exact iterCollect_spec (isChainB_eq ▸ hm.1) hm.2.2.2.2
  · rw [heq'']
  · rw [heq'']
  · rw [heq'']
    show q''.m_size = (vs.length : Int) - (k : Int)
    rw [hlen, hsz'', hm.2.2.1]
  · rw [heq'']
    show Queue.toList h' q'' = vs.drop k
    exact hm''.toList_eq

/-- Witness for C1 at `vs = [1, 2, 3]`, `k = 2`. -/
theorem c1_fifo_discipline_witness :
    (pushAll (⟨none, []⟩ : Heap Int) Queue.mkEmpty [1, 2, 3]).2.2 = none ∧
    (pushAll (⟨none, []⟩ : Heap Int) Queue.mkEmpty [1, 2, 3]).2.1.size = ((3 : Nat) : Int) ∧
    iterCollect (pushAll (⟨none, []⟩ : Heap Int) Queue.mkEmpty [1, 2, 3]).1 3
      ((pushAll (⟨none, []⟩ : Heap Int) Queue.mkEmpty [1, 2, 3]).2.1.beginIt 0)
      ((pushAll (⟨none, []⟩ : Heap Int) Queue.mkEmpty [1, 2, 3]).2.1.endIt 0) = some [1, 2, 3] ∧
    (popK (pushAll (⟨none, []⟩ : Heap Int) Queue.mkEmpty [1, 2, 3]).1
      (pushAll (⟨none, []⟩ : Heap Int) Queue.mkEmpty [1, 2, 3]).2.1 2).2.2 = none ∧
    (popK (pushAll (⟨none, []⟩ : Heap Int) Queue.mkEmpty [1, 2, 3]).1
      (pushAll (⟨none, []⟩ : Heap Int) Queue.mkEmpty [1, 2, 3]).2.1 2).1 =
      (pushAll (⟨none, []⟩ : Heap Int) Queue.mkEmpty [1, 2, 3]).1 ∧
    (popK (pushAll (⟨none, []⟩ : Heap Int) Queue.mkEmpty [1, 2, 3]).1
      (pushAll (⟨none, []⟩ : Heap Int) Queue.mkEmpty [1, 2, 3]).2.1 2).2.1.size =
      ((3 : Nat) : Int) - (2 : Nat) ∧
    Queue.toList (pushAll (⟨none, []⟩ : Heap Int) Queue.mkEmpty [1, 2, 3]).1
      (popK (pushAll (⟨none, []⟩ : Heap Int) Queue.mkEmpty [1, 2, 3]).1
        (pushAll (⟨none, []⟩ : Heap Int) Queue.mkEmpty [1, 2, 3]).2.1 2).2.1 =
      ([1, 2, 3] : List Int).drop 2 :=
  c1_fifo_discipline ⟨none, []⟩ [1, 2, 3] 2 rfl (by decide)

/-- C4 (empty-queue misuse): on a queue with `size() == 0`, both `front`
overloads and `popFront` raise `EmptyQueue`, and `popFront` leaves heap
and queue exactly as they were; on a queue with `size() > 0`, none of
them raises `EmptyQueue`. -/
theorem c4_empty_queue_misuse (h : Heap α) (q : Queue α) :
    (q.size = 0 →
      Queue.front h q = .error .emptyQueue ∧
      Queue.frontConst h q = .error .emptyQueue ∧
      Queue.popFront h q = (h, q, some .emptyQueue)) ∧
    (0 < q.size →
      Queue.front h q ≠ .error .emptyQueue ∧
      Queue.frontConst h q ≠ .error .emptyQueue ∧
      (Queue.popFront h q).2.2 ≠ some .emptyQueue) := by
  constructor
  · intro hsz
    exact ⟨front_of_size_zero hsz, frontConst_of_size_zero hsz,
      popFront_of_size_zero hsz⟩
  · intro hsz
    have hne : ¬ q.m_size = 0 := by
      rw [Queue.size] at hsz
      omega
    refine ⟨?_, ?_, ?_⟩
    · unfold Queue.front
      simp only [hne, if_false]
      cases hfr : q.m_front with
      | none => simp
      | some a => cases hg : h.get a <;> simp [hg]
    · unfold Queue.frontConst
      simp only [hne, if_false]
      cases hfr : q.m_front with
      | none => simp
      | some a => cases hg : h.get a <;> simp [hg]
    · unfold Queue.popFront
      simp only [hne, if_false]
      cases hfr : q.m_front with
      | none => simp
      | some a => cases hg : h.get a <;> simp [hg]

/-- Witness for C4: an empty queue raises `EmptyQueue`, a one-element
queue does not. -/
theorem c4_empty_queue_misuse_witness :
    (Queue.front (⟨none, []⟩ : Heap Int) Queue.mkEmpty = .error .emptyQueue ∧
      Queue.popFront (⟨none, []⟩ : Heap Int) Queue.mkEmpty =
        ((⟨none, []⟩ : Heap Int), Queue.mkEmpty, some .emptyQueue)) ∧
    Queue.front (⟨none, [⟨5, none⟩]⟩ : Heap Int) ⟨some 0, some 0, 1⟩ ≠
      .error .emptyQueue := by
  refine ⟨⟨?_, ?_⟩, ?_⟩
  · exact ((c4_empty_queue_misuse (⟨none, []⟩ : Heap Int) Queue.mkEmpty).1 rfl).1
  · exact ((c4_empty_queue_misuse (⟨none, []⟩ : Heap Int) Queue.mkEmpty).1 rfl).2.2
  · exact ((c4_empty_queue_misuse (⟨none, [⟨5, none⟩]⟩ : Heap Int)
      ⟨some 0, some 0, 1⟩).2 (by decide)).1

/-- C8 (iterator sentinel misuse): dereferencing or advancing (either
increment form) an iterator whose current position is the past-the-end
sentinel raises `InvalidOperation`; for an iterator positioned at a node
of the queue's chain, all three operations succeed. -/
theorem c8_iterator_sentinel (h : Heap α) (q : Queue α) (it : RawIterator α)
    (as : List Nat) (l : List α) :
    (it.m_currentNode = none →
      it.deref h = .error .invalidOperation ∧
      it.inc h = .error .invalidOperation ∧
      it.incPost h = .error .invalidOperation) ∧
    (QModels h q as l → ∀ a ∈ as, it.m_currentNode = some a →
      (∃ v, it.deref h = .ok v) ∧
      (∃ it', it.inc h = .ok it') ∧
      (∃ pr, it.incPost h = .ok pr)) := by
  constructor
  · intro hnone
    refine ⟨?_, ?_, ?_⟩ <;>
      simp [RawIterator.deref, RawIterator.inc, RawIterator.incPost, hnone]
  · intro hm a ha hcur
    obtain ⟨nd, hg⟩ := isChainSeg_mem_get (isChainB_eq ▸ hm.1) ha
    refine ⟨⟨nd.data, ?_⟩, ⟨⟨it.m_ptr, nd.next⟩, ?_⟩, ⟨(it, ⟨it.m_ptr, nd.next⟩), ?_⟩⟩ <;>
      simp [RawIterator.deref, RawIterator.inc, RawIterator.incPost, hcur, hg]

/-- Witness for C8: the sentinel raises, a node position succeeds. -/
theorem c8_iterator_sentinel_witness :
    RawIterator.deref (⟨none, [⟨7, none⟩]⟩ : Heap Int) ⟨0, none⟩ =
      .error .invalidOperation ∧
    (∃ v, RawIterator.deref (⟨none, [⟨7, none⟩]⟩ : Heap Int) ⟨0, some 0⟩ = .ok v) := by
  constructor
  · exact ((c8_iterator_sentinel (⟨none, [⟨7, none⟩]⟩ : Heap Int)
      ⟨some 0, some 0, 1⟩ ⟨0, none⟩ [0] [7]).1 rfl).1
  · exact ((c8_iterator_sentinel (⟨none, [⟨7, none⟩]⟩ : Heap Int)
      ⟨some 0, some 0, 1⟩ ⟨0, some 0⟩ [0] [7]).2
      ⟨rfl, fun _ => rfl, rfl, by decide, rfl⟩ 0 (by simp) rfl).1

/-- C9 (iterator comparison): two iterators compare equal — `operator!=`
returns `false` — exactly when they reference the same current position
(same node identity, or both at the null sentinel), and `operator!=`
returning `true` is the exact negation of that position equality. -/
theorem c9_iterator_equality (it other : RawIterator α) :
    (it.ne other = false ↔ it.m_currentNode = other.m_currentNode) ∧
    (it.ne other = true ↔ it.m_currentNode ≠ other.m_currentNode) := by
  constructor <;> simp [RawIterator.ne]

/-- C10 (cross-queue end iterators): `operator!=` looks only at
`m_currentNode` and ignores `m_ptr` (the queue it came from), so the
`end()` sentinels of any two queues — including distinct, unrelated
queues at different addresses — compare as equal. -/
theorem c10_cross_queue_end_equality (a1 a2 : Nat) (q1 q2 : Queue α)
    (it other : RawIterator α) :
    it.ne other = !(it.m_currentNode == other.m_currentNode) ∧
    (q1.endIt a1).ne (q2.endIt a2) = false := by
  exact ⟨rfl, by simp [RawIterator.ne, Queue.endIt]⟩

/-! ### The copy-constructor loop specification -/

theorem copyLoop_spec {s u : Nat} :
    ∀ (as : List Nat) {l : List α} {cur : Option Nat} {h : Heap α} {acc : Queue α}
      {asA : List Nat} {lA : List α},
      isChainSeg h cur as none = true →
      dataOf h as = l.map some →
      QModels h acc asA lA →
      (∀ b ∈ as, b ∉ asA) →
      ∃ h' acc' err,
        copyLoop h as.length ⟨s, cur⟩ ⟨u, none⟩ acc = (h', acc', err) ∧
        h'.cap = h.cap ∧ h.nodes.length ≤ h'.nodes.length ∧
        (∀ b, b < h.nodes.length → b ∉ asA → h'.get b = h.get b) ∧
        (h.cap = none → err = none) ∧
        (err = none → ∃ asA', QModels h' acc' asA' (lA ++ l) ∧
          (∀ b ∈ asA', b ∈ asA ∨ h.nodes.length ≤ b)) := by
  intro as
  induction as with
  | nil =>
    intro l cur h acc asA lA hc hd hmacc _
    have : l = [] := by
      cases l with
      | nil => rfl
      | cons x xs => exact absurd hd (by simp [dataOf_nil])
    subst this
    rw [isChainSeg_nil.mp hc]
    refine ⟨h, acc, none, ?_, rfl, le_refl _, fun b _ _ => rfl, fun _ => rfl, ?_⟩
    · simp [copyLoop, RawIterator.ne]
    · intro _
      exact ⟨asA, by simpa using hmacc, fun b hb => Or.inl hb⟩
  | cons a t ih =>
    intro l cur h acc asA lA hc hd hmacc hdisj
    obtain ⟨rfl, nd, hg, hrest⟩ := isChainSeg_cons.mp hc
    cases l with
    | nil => exact absurd hd (by simp [dataOf_cons])
    | cons v l' =>
      rw [dataOf_cons, hg, List.map_cons] at hd
      have hv : nd.data = v := by
        have := (List.cons.injEq _ _ _ _ ▸ hd).1
        simpa using this
      have hd' : dataOf h t = l'.map some := (List.cons.injEq _ _ _ _ ▸ hd).2
      have hamem : a ∉ asA := hdisj a (List.mem_cons_self a t)
      have halt : a < h.nodes.length := Heap.get_lt_length hg
      have htlt : ∀ b ∈ t, b < h.nodes.length :=
        fun b hb => isChainSeg_mem_lt hrest b hb
      have hne : RawIterator.ne (α := α) ⟨s, some a⟩ ⟨u, none⟩ = true := by
        simp [RawIterator.ne]
      rcases pushBack_spec (v := nd.data) hmacc with ⟨halloc, heqpush⟩ | hok
      · -- allocation fails: bad_alloc escapes the loop
        have hstep : copyLoop h (t.length + 1) ⟨s, some a⟩ ⟨u, none⟩ acc =
            (h, acc, some .badAlloc) := by
          simp [copyLoop, hne, RawIterator.deref, hg, heqpush]
        refine ⟨h, acc, some .badAlloc, hstep, rfl, le_refl _,
          fun b _ _ => rfl, ?_, ?_⟩
        · intro hcapnone
          rw [Heap.alloc_of_cap_none hcapnone] at halloc
          exact Option.noConfusion halloc
        · intro hnone
          exact Option.noConfusion hnone
      · obtain ⟨h1, acc1, heqpush, hmacc1, hcap1, hlen1, hframe1⟩ := hok
        have hagreet : ∀ b ∈ t, h1.get b = h.get b := fun b hb =>
          hframe1 b (htlt b hb) (hdisj b (List.mem_cons_of_mem a hb))
        have hg1 : h1.get a = some nd := by
          rw [hframe1 a halt hamem]
          exact hg
        have hchain1 : isChainSeg h1 nd.next t none = true :=
          isChainSeg_frame hagreet hrest
        have hd1 : dataOf h1 t = l'.map some := by
          rw [dataOf_frame hagreet]
          exact hd'
        have hdisj1 : ∀ b ∈ t, b ∉ asA ++ [h.nodes.length] := by
          intro b hb hmem
          rcases List.mem_append.mp hmem with hmem | hmem
          · exact hdisj b (List.mem_cons_of_mem a hb) hmem
          · simp at hmem
            have := htlt b hb
            omega
        obtain ⟨h', acc', err, heq', hcap', hlen', hframe', hcnone', hmodels'⟩ :=
          ih hchain1 hd1 hmacc1 hdisj1
        have hstep : copyLoop h (t.length + 1) ⟨s, some a⟩ ⟨u, none⟩ acc =
            copyLoop h1 t.length ⟨s, nd.next⟩ ⟨u, none⟩ acc1 := by
          simp [copyLoop, hne, RawIterator.deref, RawIterator.inc, hg, hg1, heqpush]
        refine ⟨h', acc', err, ?_, ?_, ?_, ?_, ?_, ?_⟩
        · rw [List.length_cons, hstep]
          exact heq'
        · rw [hcap', hcap1]
        · omega
        · intro b hb hbnin
          have hb1 : b < h1.nodes.length := by omega
          have hbnin1 : b ∉ asA ++ [h.nodes.length] := by
            intro hmem
            rcases List.mem_append.mp hmem with hmem | hmem
            · exact hbnin hmem
            · simp at hmem
              omega
          rw [hframe' b hb1 hbnin1, hframe1 b hb hbnin]
        · intro hcapnone
          exact hcnone' (by rw [hcap1, hcapnone])
        · intro hnone
          obtain ⟨asA', hmA', hnewA'⟩ := hmodels' hnone
          refine ⟨asA', ?_, ?_⟩
          · rw [hv] at hmA'
            simpa using hmA'
          · intro b hb
            rcases hnewA' b hb with hb' | hb'
            · rcases List.mem_append.mp hb' with hb'' | hb''
              · exact Or.inl hb''
              · simp at hb''
                omega
            · right
              omega

/-! ### Copy constructor and assignment specifications -/

theorem copyCtor_spec {h : Heap α} {q : Queue α} {as : List Nat} {l : List α}
    (hm : QModels h q as l) :
    ∃ h' q' err,
      Queue.copyCtor h q = (h', q', err) ∧
      h'.cap = h.cap ∧ h.nodes.length ≤ h'.nodes.length ∧
      (∀ b, b < h.nodes.length → h'.get b = h.get b) ∧
      (h.cap = none → err = none) ∧
      (err = none → ∃ as', QModels h' q' as' l ∧
        (∀ b ∈ as', h.nodes.length ≤ b)) := by
  obtain ⟨h', q', err, heq, hcap, hlen, hframe, hcnone, hmod⟩ :=
    copyLoop_spec (s := 0) (u := 0) as (isChainB_eq ▸ hm.1) hm.2.2.2.2
      (qmodels_mkEmpty h) (fun b _ hb => absurd hb (List.not_mem_nil b))
  refine ⟨h', q', err, ?_, hcap, hlen,
    fun b hb => hframe b hb (List.not_mem_nil b), hcnone, ?_⟩
  · rw [Queue.copyCtor, hm.toNat_size]
    exact heq
  · intro hn
    obtain ⟨as', hmA, hnew⟩ := hmod hn
    refine ⟨as', by simpa using hmA, fun b hb => ?_⟩
    rcases hnew b hb with hmem | hge
    · exact absurd hmem (List.not_mem_nil b)
    · exact hge

theorem assignFrom_of_copy_fail {h : Heap α} {target source : Queue α}
    {hc : Heap α} {qc : Queue α} {e : QErr}
    (heq : Queue.copyCtor h source = (hc, qc, some e)) :
    Queue.assignFrom h target source = (hc, target, some e) := by
  unfold Queue.assignFrom
  rw [heq]

theorem assignFrom_of_copy_ok {h : Heap α} {target source : Queue α}
    {hc : Heap α} {qc : Queue α}
    (heq : Queue.copyCtor h source = (hc, qc, none)) :
    Queue.assignFrom h target source = (hc, qc, none) := by
  unfold Queue.assignFrom
  rw [heq]

/-- C5 (assignment atomicity): `operator=` builds a complete independent
copy of the source before touching the target, so when the copy throws
(allocation failure), the escaping exception is exactly the copy
constructor's, the target queue value is untouched, and the target's
observable element sequence in the post-exception heap is exactly what
it was before the assignment began. -/
theorem c5_assignment_atomicity (h : Heap α) (target source : Queue α)
    (asT asS : List Nat) (lT lS : List α) (e : QErr)
    (hmT : QModels h target asT lT) (hmS : QModels h source asS lS)
    (hfail : (Queue.assignFrom h target source).2.2 = some e) :
    (Queue.copyCtor h source).2.2 = some e ∧
    (Queue.assignFrom h target source).2.1 = target ∧
    Queue.toList (Queue.assignFrom h target source).1 target =
      Queue.toList h target := by
  obtain ⟨hc, qc, errc, heqc, hcap, hlen, hframe, hcnone, hmod⟩ := copyCtor_spec hmS
  cases errc with
  | none =>
    rw [assignFrom_of_copy_ok heqc] at hfail
    exact absurd hfail (by simp)
  | some e' =>
    have heqa : Queue.assignFrom h target source = (hc, target, some e') :=
      assignFrom_of_copy_fail heqc
    rw [heqa] at hfail
    simp only [Option.some.injEq] at hfail
    subst hfail
    have hmT' : QModels hc target asT lT :=
      hmT.frame (fun a ha => hframe a (hmT.mem_lt a ha))
    refine ⟨?_, ?_, ?_⟩
    · rw [heqc]
    · rw [heqa]
    · rw [heqa]
      show Queue.toList hc target = Queue.toList h target
      rw [hmT'.toList_eq, hmT.toList_eq]

/-- Witness for C5: a heap whose one-node budget is exhausted makes the
copy inside the assignment throw `bad_alloc`; the target stays empty. -/
theorem c5_assignment_atomicity_witness :
    (Queue.copyCtor (⟨some 1, [⟨7, none⟩]⟩ : Heap Int) ⟨some 0, some 0, 1⟩).2.2 =
      some .badAlloc ∧
    (Queue.assignFrom (⟨some 1, [⟨7, none⟩]⟩ : Heap Int) Queue.mkEmpty
      ⟨some 0, some 0, 1⟩).2.1 = Queue.mkEmpty ∧
    Queue.toList (Queue.assignFrom (⟨some 1, [⟨7, none⟩]⟩ : Heap Int) Queue.mkEmpty
      ⟨some 0, some 0, 1⟩).1 Queue.mkEmpty =
      Queue.toList (⟨some 1, [⟨7, none⟩]⟩ : Heap Int) Queue.mkEmpty :=
  c5_assignment_atomicity (⟨some 1, [⟨7, none⟩]⟩ : Heap Int) Queue.mkEmpty
    ⟨some 0, some 0, 1⟩ [] [0] [] [7] .badAlloc
    ⟨rfl, fun hne => absurd rfl hne, rfl, by decide, rfl⟩
    ⟨rfl, fun _ => rfl, rfl, by decide, rfl⟩
    (by decide)

/-! ### Mutation sequences preserve disjoint queues -/

theorem mop_preserves {h : Heap α} {q1 : Queue α} {as1 : List Nat} {l1 : List α}
    {q2 : Queue α} {as2 : List Nat} {l2 : List α} (op : MOp α)
    (hm1 : QModels h q1 as1 l1) (hm2 : QModels h q2 as2 l2)
    (hdisj : ∀ b ∈ as1, b ∉ as2) :
    QModels (mopStep h q2 op).1 q1 as1 l1 ∧
    ∃ as2' l2',
      QModels (mopStep h q2 op).1 (mopStep h q2 op).2.1 as2' l2' ∧
      ∀ b ∈ as1, b ∉ as2' := by
  cases op with
  | push v =>
    rcases pushBack_spec (v := v) hm2 with ⟨-, heq⟩ | ⟨h', q2', heq, hm2', -, -, hframe⟩
    · simp only [mopStep, heq]
      exact ⟨hm1, as2, l2, hm2, hdisj⟩
    · simp only [mopStep, heq]
      have hagree : ∀ a ∈ as1, h'.get a = h.get a := fun a ha =>
        hframe a (hm1.mem_lt a ha) (hdisj a ha)
      refine ⟨hm1.frame hagree, as2 ++ [h.nodes.length], l2 ++ [v], hm2', ?_⟩
      intro b hb hmem
      rcases List.mem_append.mp hmem with hmem | hmem
      · exact hdisj b hb hmem
      · simp at hmem
        have := hm1.mem_lt b hb
        omega
  | pop =>
    cases has2 : as2 with
    | nil =>
      have hsz : q2.m_size = 0 := by
        have := hm2.2.2.1
        rw [has2] at this
        simpa using this
      simp only [mopStep, popFront_of_size_zero hsz]
      exact ⟨hm1, as2, l2, has2 ▸ hm2, hdisj⟩
    | cons a t =>
      obtain ⟨v, l', q2', -, heq, hm2', -, -, -, -⟩ := popFront_cons (has2 ▸ hm2)
      simp only [mopStep, heq]
      refine ⟨hm1, t, l', hm2', ?_⟩
      intro b hb hmem
      exact hdisj b hb (has2 ▸ List.mem_cons_of_mem a hmem)

theorem runMOps_preserves :
    ∀ {ops : List (MOp α)} {h : Heap α} {q1 q2 : Queue α}
      {as1 as2 : List Nat} {l1 l2 : List α},
      QModels h q1 as1 l1 → QModels h q2 as2 l2 → (∀ b ∈ as1, b ∉ as2) →
      QModels (runMOps h q2 ops).1 q1 as1 l1 := by
  intro ops
  induction ops with
  | nil =>
    intro h q1 q2 as1 as2 l1 l2 hm1 _ _
    exact hm1
  | cons op ops ih =>
    intro h q1 q2 as1 as2 l1 l2 hm1 hm2 hdisj
    obtain ⟨hm1', as2', l2', hm2', hdisj'⟩ := mop_preserves op hm1 hm2 hdisj
    exact ih hm1' hm2' hdisj'

/-- C3 (deep-copy value semantics): copy construction from `q`, and
assignment of `q` to another queue object, each yield a queue with the
same size and the same front-to-back element sequence as `q`, built from
entirely fresh nodes; `q` itself is unchanged by the operation, and
afterwards any sequence of `pushBack`/`popFront` mutations applied to
either one of the two queues leaves the other's element sequence — and
hence its size — unchanged. -/
theorem c3_deep_copy_independence (h : Heap α) (q target : Queue α)
    (as : List Nat) (l : List α) (ops : List (MOp α))
    (hm : QModels h q as l) (hcap : h.cap = none) :
    ((Queue.copyCtor h q).2.2 = none ∧
     (Queue.copyCtor h q).2.1.size = q.size ∧
     Queue.toList (Queue.copyCtor h q).1 (Queue.copyCtor h q).2.1 =
       Queue.toList h q ∧
     Queue.toList (Queue.copyCtor h q).1 q = Queue.toList h q ∧
     Queue.toList (runMOps (Queue.copyCtor h q).1 (Queue.copyCtor h q).2.1 ops).1 q =
       Queue.toList h q ∧
     Queue.toList (runMOps (Queue.copyCtor h q).1 q ops).1 (Queue.copyCtor h q).2.1 =
       Queue.toList h q) ∧
    ((Queue.assignFrom h target q).2.2 = none ∧
     (Queue.assignFrom h target q).2.1.size = q.size ∧
     Queue.toList (Queue.assignFrom h target q).1 (Queue.assignFrom h target q).2.1 =
       Queue.toList h q ∧
     Queue.toList (Queue.assignFrom h target q).1 q = Queue.toList h q ∧
     Queue.toList (runMOps (Queue.assignFrom h target q).1
       (Queue.assignFrom h target q).2.1 ops).1 q = Queue.toList h q ∧
     Queue.toList (runMOps (Queue.assignFrom h target q).1 q ops).1
       (Queue.assignFrom h target q).2.1 = Queue.toList h q) := by
  obtain ⟨hc, qc, errc, heqc, hcapc, hlenc, hframec, hcnonec, hmodc⟩ := copyCtor_spec hm
  have herr : errc = none := hcnonec hcap
  subst herr
  obtain ⟨as', hmc, hfresh⟩ := hmodc rfl
  have hmq : QModels hc q as l := hm.frame (fun a ha => hframec a (hm.mem_lt a ha))
  have hdisj1 : ∀ b ∈ as, b ∉ as' := by
    intro b hb hmem
    have h1 := hm.mem_lt b hb
    have h2 := hfresh b hmem
    omega
  have hdisj2 : ∀ b ∈ as', b ∉ as := by
    intro b hb hmem
    have h1 := hm.mem_lt b hmem
    have h2 := hfresh b hb
    omega
  have hsize : qc.size = q.size := by
    rw [Queue.size, Queue.size, hmc.2.2.1, hm.2.2.1]
    have h1 : l.length = as'.length := hmc.length_eq
    have h2 : l.length = as.length := hm.length_eq
    have : as'.length = as.length := by omega
    rw [this]
  have hq_toList : Queue.toList h q = l := hm.toList_eq
  have hqc_toList : Queue.toList hc qc = l := hmc.toList_eq
  have hq'_toList : Queue.toList hc q = l := hmq.toList_eq
  have hmut1 : QModels (runMOps hc qc ops).1 q as l :=
    runMOps_preserves hmq hmc hdisj1
  have hmut2 : QModels (runMOps hc q ops).1 qc as' l :=
    runMOps_preserves hmc hmq hdisj2
  have heqa : Queue.assignFrom h target q = (hc, qc, none) :=
    assignFrom_of_copy_ok heqc
  constructor
  · have e1 : (Queue.copyCtor h q).1 = hc := by rw [heqc]
    have e2 : (Queue.copyCtor h q).2.1 = qc := by rw [heqc]
    have e3 : (Queue.copyCtor h q).2.2 = none := by rw [heqc]
    rw [e1, e2, hq_toList]
    exact ⟨e3, hsize, hqc_toList, hq'_toList, hmut1.toList_eq, hmut2.toList_eq⟩
  · have e1 : (Queue.assignFrom h target q).1 = hc := by rw [heqa]
    have e2 : (Queue.assignFrom h target q).2.1 = qc := by rw [heqa]
    have e3 : (Queue.assignFrom h target q).2.2 = none := by rw [heqa]
    rw [e1, e2, hq_toList]
    exact ⟨e3, hsize, hqc_toList, hq'_toList, hmut1.toList_eq, hmut2.toList_eq⟩

/-- Witness for C3 on the two-element queue `[1, 2]` with the mutation
sequence `pushBack 9; popFront` applied to the copy. -/
theorem c3_deep_copy_independence_witness :
    (Queue.copyCtor (⟨none, [⟨1, some 1⟩, ⟨2, none⟩]⟩ : Heap Int)
      ⟨some 0, some 1, 2⟩).2.2 = none ∧
    Queue.toList (Queue.copyCtor (⟨none, [⟨1, some 1⟩, ⟨2, none⟩]⟩ : Heap Int)
        ⟨some 0, some 1, 2⟩).1
      (Queue.copyCtor (⟨none, [⟨1, some 1⟩, ⟨2, none⟩]⟩ : Heap Int)
        ⟨some 0, some 1, 2⟩).2.1 =
      Queue.toList (⟨none, [⟨1, some 1⟩, ⟨2, none⟩]⟩ : Heap Int) ⟨some 0, some 1, 2⟩ ∧
    Queue.toList (runMOps (Queue.copyCtor (⟨none, [⟨1, some 1⟩, ⟨2, none⟩]⟩ : Heap Int)
        ⟨some 0, some 1, 2⟩).1
      (Queue.copyCtor (⟨none, [⟨1, some 1⟩, ⟨2, none⟩]⟩ : Heap Int)
        ⟨some 0, some 1, 2⟩).2.1 [MOp.push 9, MOp.pop]).1 ⟨some 0, some 1, 2⟩ =
      Queue.toList (⟨none, [⟨1, some 1⟩, ⟨2, none⟩]⟩ : Heap Int) ⟨some 0, some 1, 2⟩ := by
  have hfull := c3_deep_copy_independence
    (⟨none, [⟨1, some 1⟩, ⟨2, none⟩]⟩ : Heap Int) ⟨some 0, some 1, 2⟩
    Queue.mkEmpty [0, 1] [1, 2] [MOp.push 9, MOp.pop]
    ⟨rfl, fun _ => rfl, rfl, by decide, rfl⟩ rfl
  exact ⟨hfull.1.1, hfull.1.2.2.1, hfull.1.2.2.2.2.1⟩

/-! ### The filter loop specification -/

theorem filterLoop_spec {s u : Nat} {p : α → Bool} :
    ∀ (as : List Nat) {l : List α} {cur : Option Nat} {h : Heap α} {acc : Queue α}
      {asA : List Nat} {lA : List α},
      isChainSeg h cur as none = true →
      dataOf h as = l.map some →
      QModels h acc asA lA →
      (∀ b ∈ as, b ∉ asA) →
      ∃ h' acc' err,
        filterLoop h p as.length ⟨s, cur⟩ ⟨u, none⟩ acc = (h', acc', err) ∧
        h'.cap = h.cap ∧ h.nodes.length ≤ h'.nodes.length ∧
        (∀ b, b < h.nodes.length → b ∉ asA → h'.get b = h.get b) ∧
        (h.cap = none → err = none) ∧
        (err = none → ∃ asA', QModels h' acc' asA' (lA ++ l.filter p) ∧
          (∀ b ∈ asA', b ∈ asA ∨ h.nodes.length ≤ b)) := by
  intro as
  induction as with
  | nil =>
    intro l cur h acc asA lA hc hd hmacc _
    have : l = [] := by
      cases l with
      | nil => rfl
      | cons x xs => exact absurd hd (by simp [dataOf_nil])
    subst this
    rw [isChainSeg_nil.mp hc]
    refine ⟨h, acc, none, ?_, rfl, le_refl _, fun b _ _ => rfl, fun _ => rfl, ?_⟩
    · simp [filterLoop, RawIterator.ne]
    · intro _
      exact ⟨asA, by simpa using hmacc, fun b hb => Or.inl hb⟩
  | cons a t ih =>
    intro l cur h acc asA lA hc hd hmacc hdisj
    obtain ⟨rfl, nd, hg, hrest⟩ := isChainSeg_cons.mp hc
    cases l with
    | nil => exact absurd hd (by simp [dataOf_cons])
    | cons v l' =>
      rw [dataOf_cons, hg, List.map_cons] at hd
      have hv : nd.data = v := by
        have := (List.cons.injEq _ _ _ _ ▸ hd).1
        simpa using this
      have hd' : dataOf h t = l'.map some := (List.cons.injEq _ _ _ _ ▸ hd).2
      have hamem : a ∉ asA := hdisj a (List.mem_cons_self a t)
      have halt : a < h.nodes.length := Heap.get_lt_length hg
      have htlt : ∀ b ∈ t, b < h.nodes.length :=
        fun b hb => isChainSeg_mem_lt hrest b hb
      have hne : RawIterator.ne (α := α) ⟨s, some a⟩ ⟨u, none⟩ = true := by
        simp [RawIterator.ne]
      cases hp : p nd.data with
      | false =>
        -- the element is skipped: no push, just advance in the unchanged heap
        have hdisjt : ∀ b ∈ t, b ∉ asA :=
          fun b hb => hdisj b (List.mem_cons_of_mem a hb)
        obtain ⟨h', acc', err, heq', hcap', hlen', hframe', hcnone', hmodels'⟩ :=
          ih hrest hd' hmacc hdisjt
        have hstep : filterLoop h p (t.length + 1) ⟨s, some a⟩ ⟨u, none⟩ acc =
            filterLoop h p t.length ⟨s, nd.next⟩ ⟨u, none⟩ acc := by
          simp [filterLoop, hne, RawIterator.deref, RawIterator.inc, hg, hp]
        refine ⟨h', acc', err, ?_, hcap', hlen', hframe', hcnone', ?_⟩
        · rw [List.length_cons, hstep]
          exact heq'
        · intro hnone
          obtain ⟨asA', hmA', hnewA'⟩ := hmodels' hnone
          refine ⟨asA', ?_, hnewA'⟩
          have hpv : p v = false := hv ▸ hp
          rw [List.filter_cons]
          simp only [hpv, Bool.false_eq_true, if_false]
          exact hmA'
      | true =>
        rcases pushBack_spec (v := nd.data) hmacc with ⟨halloc, heqpush⟩ |
          ⟨h1, acc1, heqpush, hmacc1, hcap1, hlen1, hframe1⟩
        · have hstep : filterLoop h p (t.length + 1) ⟨s, some a⟩ ⟨u, none⟩ acc =
              (h, acc, some .badAlloc) := by
            simp [filterLoop, hne, RawIterator.deref, hg, hp, heqpush]
          refine ⟨h, acc, some .badAlloc, ?_, rfl, le_refl _,
            fun b _ _ => rfl, ?_, ?_⟩
          · rw [List.length_cons, hstep]
          · intro hcapnone
            rw [Heap.alloc_of_cap_none hcapnone] at halloc
            exact Option.noConfusion halloc
          · intro hnone
            exact Option.noConfusion hnone
        · have hagreet : ∀ b ∈ t, h1.get b = h.get b := fun b hb =>
            hframe1 b (htlt b hb) (hdisj b (List.mem_cons_of_mem a hb))
          have hg1 : h1.get a = some nd := by
            rw [hframe1 a halt hamem]
            exact hg
          have hchain1 : isChainSeg h1 nd.next t none = true :=
            isChainSeg_frame hagreet hrest
          have hd1 : dataOf h1 t = l'.map some := by
            rw [dataOf_frame hagreet]
            exact hd'
          have hdisj1 : ∀ b ∈ t, b ∉ asA ++ [h.nodes.length] := by
            intro b hb hmem
            rcases List.mem_append.mp hmem with hmem | hmem
            · exact hdisj b (List.mem_cons_of_mem a hb) hmem
            · simp at hmem
              have := htlt b hb
              omega
          obtain ⟨h', acc', err, heq', hcap', hlen', hframe', hcnone', hmodels'⟩ :=
            ih hchain1 hd1 hmacc1 hdisj1
          have hstep : filterLoop h p (t.length + 1) ⟨s, some a⟩ ⟨u, none⟩ acc =
              filterLoop h1 p t.length ⟨s, nd.next⟩ ⟨u, none⟩ acc1 := by
            simp [filterLoop, hne, RawIterator.deref, RawIterator.inc, hg, hg1,
              hp, heqpush]
          refine ⟨h', acc', err, ?_, ?_, ?_, ?_, ?_, ?_⟩
          · rw [List.length_cons, hstep]
            exact heq'
          · rw [hcap', hcap1]
          · omega
          · intro b hb hbnin
            have hb1 : b < h1.nodes.length := by omega
            have hbnin1 : b ∉ asA ++ [h.nodes.length] := by
              intro hmem
              rcases List.mem_append.mp hmem with hmem | hmem
              · exact hbnin hmem
              · simp at hmem
                omega
            rw [hframe' b hb1 hbnin1, hframe1 b hb hbnin]
          · intro hcapnone
            exact hcnone' (by rw [hcap1, hcapnone])
          · intro hnone
            obtain ⟨asA', hmA', hnewA'⟩ := hmodels' hnone
            refine ⟨asA', ?_, ?_⟩
            · rw [show (v :: l').filter p = v :: l'.filter p by
                simp [List.filter_cons, hv ▸ hp]]
              rw [hv] at hmA'
              simpa using hmA'
            · intro b hb
              rcases hnewA' b hb with hb' | hb'
              · rcases List.mem_append.mp hb' with hb'' | hb''
                · exact Or.inl hb''
                · simp at hb''
                  omega
              · right
                omega

/-- C6 (filter correctness): `filter(q, p)` succeeds, its result queue's
element sequence is exactly the subsequence of `q`'s elements satisfying
`p`, in `q`'s front-to-back order (with matching size), and `q`'s own
observable element sequence is unchanged by the call. -/
theorem c6_filter_correct (h : Heap α) (q : Queue α) (p : α → Bool)
    (as : List Nat) (l : List α)
    (hm : QModels h q as l) (hcap : h.cap = none) :
    (filter h q p).2.2 = none ∧
    Queue.toList (filter h q p).1 (filter h q p).2.1 = l.filter p ∧
    (filter h q p).2.1.size = ((l.filter p).length : Int) ∧
    Queue.toList (filter h q p).1 q = Queue.toList h q ∧
    Queue.toList h q = l := by
  obtain ⟨h', q', err, heq, hcap', hlen', hframe', hcnone, hmod⟩ :=
    filterLoop_spec (s := 0) (u := 0) (p := p) as (isChainB_eq ▸ hm.1) hm.2.2.2.2
      (qmodels_mkEmpty h) (fun b _ hb => absurd hb (List.not_mem_nil b))
  have heqf : filter h q p = (h', q', err) := by
    unfold filter
    rw [hm.toNat_size]
    exact heq
  have herr : err = none := hcnone hcap
  subst herr
  obtain ⟨as', hmA, hnew⟩ := hmod rfl
  simp only [List.nil_append] at hmA
  have hmq : QModels h' q as l :=
    hm.frame (fun a ha => hframe' a (hm.mem_lt a ha) (List.not_mem_nil a))
  have e1 : (filter h q p).1 = h' := by rw [heqf]
  have e2 : (filter h q p).2.1 = q' := by rw [heqf]
  have e3 : (filter h q p).2.2 = none := by rw [heqf]
  rw [e1, e2]
  refine ⟨e3, hmA.toList_eq, ?_, ?_, hm.toList_eq⟩
  · rw [Queue.size, hmA.2.2.1, hmA.length_eq]
  · rw [hmq.toList_eq, hm.toList_eq]

/-- Witness for C6 on `[1, 2]` with the predicate `1 < x`. -/
theorem c6_filter_correct_witness :
    (filter (⟨none, [⟨1, some 1⟩, ⟨2, none⟩]⟩ : Heap Int) ⟨some 0, some 1, 2⟩
      (fun x => decide (1 < x))).2.2 = none ∧
    Queue.toList (filter (⟨none, [⟨1, some 1⟩, ⟨2, none⟩]⟩ : Heap Int)
        ⟨some 0, some 1, 2⟩ (fun x => decide (1 < x))).1
      (filter (⟨none, [⟨1, some 1⟩, ⟨2, none⟩]⟩ : Heap Int)
        ⟨some 0, some 1, 2⟩ (fun x => decide (1 < x))).2.1 = [2] ∧
    Queue.toList (filter (⟨none, [⟨1, some 1⟩, ⟨2, none⟩]⟩ : Heap Int)
        ⟨some 0, some 1, 2⟩ (fun x => decide (1 < x))).1 ⟨some 0, some 1, 2⟩ =
      [1, 2] := by
  have hfull := c6_filter_correct (⟨none, [⟨1, some 1⟩, ⟨2, none⟩]⟩ : Heap Int)
    ⟨some 0, some 1, 2⟩ (fun x => decide (1 < x)) [0, 1] [1, 2]
    ⟨rfl, fun _ => rfl, rfl, by decide, rfl⟩ rfl
  refine ⟨hfull.1, ?_, ?_⟩
  · rw [hfull.2.1]
    decide
  · rw [hfull.2.2.2.1, hfull.2.2.2.2]

/-! ### The transform loop specification -/

theorem mapLoop_spec {s u : Nat} {f : α → α} :
    ∀ (as : List Nat) {l : List α} {cur : Option Nat} {h : Heap α},
      isChainSeg h cur as none = true →
      dataOf h as = l.map some →
      as.Nodup →
      ∃ h2, mapLoop h f as.length ⟨s, cur⟩ ⟨u, none⟩ = (h2, none) ∧
        h2.cap = h.cap ∧ h2.nodes.length = h.nodes.length ∧
        (∀ b, b ∉ as → h2.get b = h.get b) ∧
        isChainSeg h2 cur as none = true ∧
        dataOf h2 as = (l.map f).map some := by
  intro as
  induction as with
  | nil =>
    intro l cur h hc hd _
    have : l = [] := by
      cases l with
      | nil => rfl
      | cons x xs => exact absurd hd (by simp [dataOf_nil])
    subst this
    rw [isChainSeg_nil.mp hc]
    exact ⟨h, by simp [mapLoop, RawIterator.ne], rfl, rfl, fun b _ => rfl,
      isChainSeg_nil.mpr rfl, rfl⟩
  | cons a t ih =>
    intro l cur h hc hd hnd
    obtain ⟨rfl, nd, hg, hrest⟩ := isChainSeg_cons.mp hc
    cases l with
    | nil => exact absurd hd (by simp [dataOf_cons])
    | cons v l' =>
      rw [dataOf_cons, hg, List.map_cons] at hd
      have hv : nd.data = v := by
        have := (List.cons.injEq _ _ _ _ ▸ hd).1
        simpa using this
      have hd' : dataOf h t = l'.map some := (List.cons.injEq _ _ _ _ ▸ hd).2
      have hna : a ∉ t := (List.nodup_cons.mp hnd).1
      have hndt : t.Nodup := (List.nodup_cons.mp hnd).2
      set h1 := h.setData a (f nd.data) with hh1def
      have hg1 : h1.get a = some ⟨f nd.data, nd.next⟩ := Heap.setData_get_self hg
      have hagree : ∀ b ∈ t, h1.get b = h.get b := fun b hb =>
        Heap.setData_get_ne (fun he => hna (he ▸ hb))
      have hchain1 : isChainSeg h1 nd.next t none = true :=
        isChainSeg_frame hagree hrest
      have hd1 : dataOf h1 t = l'.map some := by
        rw [dataOf_frame hagree]
        exact hd'
      obtain ⟨h2, heq2, hcap2, hlen2, hframe2, hchain2, hdata2⟩ := ih hchain1 hd1 hndt
      have hne : RawIterator.ne (α := α) ⟨s, some a⟩ ⟨u, none⟩ = true := by
        simp [RawIterator.ne]
      have hstep : mapLoop h f (t.length + 1) ⟨s, some a⟩ ⟨u, none⟩ =
          mapLoop h1 f t.length ⟨s, nd.next⟩ ⟨u, none⟩ := by
        simp [mapLoop, hne, hg, RawIterator.inc, hh1def, hg1]
      refine ⟨h2, ?_, ?_, ?_, ?_, ?_, ?_⟩
      · rw [List.length_cons, hstep]
        exact heq2
      · rw [hcap2, hh1def, Heap.setData_cap]
      · rw [hlen2, hh1def, Heap.setData_length]
      · intro b hb
        have hbt : b ∉ t := fun hmem => hb (List.mem_cons_of_mem a hmem)
        have hba : b ≠ a := fun he => hb (he ▸ List.mem_cons_self a t)
        rw [hframe2 b hbt, hh1def, Heap.setData_get_ne hba]
      · refine isChainSeg_cons.mpr ⟨rfl, ⟨f nd.data, nd.next⟩, ?_, hchain2⟩
        rw [hframe2 a hna]
        exact hg1
      · rw [dataOf_cons]
        rw [hframe2 a hna, hg1, hdata2, hv]
        rfl

theorem transform_eq {h : Heap α} {q : Queue α} {f : α → α} {h1 h2 : Heap α}
    {tq : Queue α}
    (heqc : Queue.copyCtor h q = (h1, tq, none))
    (heqm : mapLoop h1 f tq.m_size.toNat (tq.beginIt 0) (tq.endIt 0) = (h2, none)) :
    transform h q f = Queue.assignFrom h2 q tq := by
  unfold transform
  rw [heqc]
  simp only [heqm]

/-- C7 (transform correctness): `transform(q, m)` succeeds and replaces
the queue's element sequence by the image of the mapper, preserving size
and the front-to-back order of positions: the observable sequence
afterwards is exactly `map m` of the sequence before. -/
theorem c7_transform_correct (h : Heap α) (q : Queue α) (f : α → α)
    (as : List Nat) (l : List α)
    (hm : QModels h q as l) (hcap : h.cap = none) :
    (transform h q f).2.2 = none ∧
    Queue.toList (transform h q f).1 (transform h q f).2.1 = l.map f ∧
    (transform h q f).2.1.size = q.size ∧
    Queue.toList h q = l := by
  obtain ⟨h1, tq, errc, heqc, hcap1, hlen1, hframe1, hcnone1, hmod1⟩ := copyCtor_spec hm
  have herrc : errc = none := hcnone1 hcap
  subst herrc
  obtain ⟨as1, hm1, hfresh1⟩ := hmod1 rfl
  obtain ⟨h2, heqm, hcap2, hlen2, hframe2, hchain2, hdata2⟩ :=
    mapLoop_spec (s := 0) (u := 0) (f := f) as1 (isChainB_eq ▸ hm1.1)
      hm1.2.2.2.2 hm1.2.2.2.1
  have heqm' : mapLoop h1 f tq.m_size.toNat (tq.beginIt 0) (tq.endIt 0) =
      (h2, none) := by
    rw [hm1.toNat_size]
    exact heqm
  have hm2 : QModels h2 tq as1 (l.map f) := by
    refine ⟨isChainB_eq ▸ hchain2, hm1.2.1, ?_, hm1.2.2.2.1, hdata2⟩
    rw [hm1.2.2.1]
  have hcap2' : h2.cap = none := by
    rw [hcap2, hcap1, hcap]
  obtain ⟨h3, q3, err3, heqc3, hcap3, hlen3, hframe3, hcnone3, hmod3⟩ :=
    copyCtor_spec hm2
  have herr3 : err3 = none := hcnone3 hcap2'
  subst herr3
  obtain ⟨as3, hm3, hfresh3⟩ := hmod3 rfl
  have heqt : transform h q f = (h3, q3, none) := by
    rw [transform_eq heqc heqm']
    exact assignFrom_of_copy_ok heqc3
  have e1 : (transform h q f).1 = h3 := by rw [heqt]
  have e2 : (transform h q f).2.1 = q3 := by rw [heqt]
  have e3 : (transform h q f).2.2 = none := by rw [heqt]
  rw [e1, e2]
  refine ⟨e3, hm3.toList_eq, ?_, hm.toList_eq⟩
  rw [Queue.size, Queue.size, hm3.2.2.1, hm.2.2.1]
  have h1len : (l.map f).length = as3.length := hm3.length_eq
  have h2len : l.length = as.length := hm.length_eq
  have : as3.length = as.length := by
    rw [← h1len, List.length_map, h2len]
  rw [this]

/-- Witness for C7: pushing 1, 2, 3 and transforming with the doubling
mapper yields the iteration sequence 2, 4, 6. -/
theorem c7_transform_correct_witness :
    (transform (⟨none, [⟨1, some 1⟩, ⟨2, some 2⟩, ⟨3, none⟩]⟩ : Heap Int)
      ⟨some 0, some 2, 3⟩ (fun x => 2 * x)).2.2 = none ∧
    Queue.toList (transform (⟨none, [⟨1, some 1⟩, ⟨2, some 2⟩, ⟨3, none⟩]⟩ : Heap Int)
        ⟨some 0, some 2, 3⟩ (fun x => 2 * x)).1
      (transform (⟨none, [⟨1, some 1⟩, ⟨2, some 2⟩, ⟨3, none⟩]⟩ : Heap Int)
        ⟨some 0, some 2, 3⟩ (fun x => 2 * x)).2.1 = [2, 4, 6] ∧
    (transform (⟨none, [⟨1, some 1⟩, ⟨2, some 2⟩, ⟨3, none⟩]⟩ : Heap Int)
      ⟨some 0, some 2, 3⟩ (fun x => 2 * x)).2.1.size =
      (⟨some 0, some 2, 3⟩ : Queue Int).size := by
  have hfull := c7_transform_correct
    (⟨none, [⟨1, some 1⟩, ⟨2, some 2⟩, ⟨3, none⟩]⟩ : Heap Int)
    ⟨some 0, some 2, 3⟩ (fun x => 2 * x) [0, 1, 2] [1, 2, 3]
    ⟨rfl, fun _ => rfl, rfl, by decide, rfl⟩ rfl
  refine ⟨hfull.1, ?_, hfull.2.2.1⟩
  rw [hfull.2.1]
  decide

/-! ### Reachable queue states -/

/-- Queue states reachable by sequences of the public operations, in a
world where other well-formed queues may share the heap. `init` is the
default constructor; `push` and `pop` are the mutators (the post-state
convention already makes a throwing call leave the state unchanged);
`copy` constructs a new queue from any well-formed queue in the heap
(which covers every reachable one) when the copy succeeds — a throwing
copy constructor leaves no object behind; `assign` overwrites a
reachable queue from any well-formed source when the assignment succeeds
(the code's `this == &other` short-circuit changes nothing, and a
throwing assignment leaves the target unchanged, covered by `frame`);
`frame` closes reachability under heap activity that does not disturb
this queue's chain, as operations of other queues with disjoint chains
do. -/
inductive Reach : Heap α → Queue α → Prop where
  | init (h : Heap α) : Reach h Queue.mkEmpty
  | push (v : α) {h : Heap α} {q : Queue α} : Reach h q →
      Reach (Queue.pushBack h q v).1 (Queue.pushBack h q v).2.1
  | pop {h : Heap α} {q : Queue α} : Reach h q →
      Reach (Queue.popFront h q).1 (Queue.popFront h q).2.1
  | copy {h : Heap α} {q : Queue α} (as : List Nat) (l : List α) :
      QModels h q as l → (Queue.copyCtor h q).2.2 = none →
      Reach (Queue.copyCtor h q).1 (Queue.copyCtor h q).2.1
  | assign {h : Heap α} {target source : Queue α} (as : List Nat) (l : List α) :
      Reach h target → QModels h source as l →
      (Queue.assignFrom h target source).2.2 = none →
      Reach (Queue.assignFrom h target source).1
        (Queue.assignFrom h target source).2.1
  | frame {h h' : Heap α} {q : Queue α} : Reach h q →
      (∀ as l, QModels h q as l → QModels h' q as l) → Reach h' q

theorem reach_models {h : Heap α} {q : Queue α} (hr : Reach h q) :
    ∃ as l, QModels h q as l := by
  induction hr with
  | init h => exact ⟨[], [], qmodels_mkEmpty h⟩
  | push v hr ih =>
    obtain ⟨as, l, hm⟩ := ih
    rcases pushBack_spec hm with ⟨-, heq⟩ | ⟨h', q', heq, hm', -, -, -⟩
    · rw [heq]
      exact ⟨as, l, hm⟩
    · rw [heq]
      exact ⟨_, _, hm'⟩
  | pop hr ih =>
    rename_i hh qq
    obtain ⟨as, l, hm⟩ := ih
    cases has : as with
    | nil =>
      subst has
      have hsz : qq.m_size = 0 := by simpa using hm.2.2.1
      rw [popFront_of_size_zero hsz]
      exact ⟨[], l, hm⟩
    | cons a t =>
      subst has
      obtain ⟨v, l', q', rfl, heq, hm', -, -, -, -⟩ := popFront_cons hm
      rw [heq]
      exact ⟨t, l', hm'⟩
  | copy as l hm hsucc =>
    obtain ⟨h', q', err, heq, -, -, -, -, hmod⟩ := copyCtor_spec hm
    rw [heq] at hsucc ⊢
    obtain ⟨as', hmA, -⟩ := hmod hsucc
    exact ⟨as', l, hmA⟩
  | assign as l hrt hm hsucc iht =>
    obtain ⟨hc, qc, errc, heqc, -, -, -, -, hmod⟩ := copyCtor_spec hm
    cases errc with
    | some e =>
      rw [assignFrom_of_copy_fail heqc] at hsucc
      exact absurd hsucc (by simp)
    | none =>
      rw [assignFrom_of_copy_ok heqc]
      obtain ⟨as', hmA, -⟩ := hmod rfl
      exact ⟨as', l, hmA⟩
  | frame hr hframe ih =>
    obtain ⟨as, l, hm⟩ := ih
    exact ⟨as, l, hframe as l hm⟩

/-- C2 (state invariant, amended): in every queue state reachable by a
sequence of the public operations, `count == 0 ⟺ front is null` holds,
and whenever `count ≠ 0` the rear pointer is non-null. The claimed
equivalence with `rear is null` does not hold: `popFront` never resets
`m_rear`, so after it removes the last remaining element the front is
null but the rear still holds the address of the deleted node (see the
counterexample theorem). -/
theorem c2_invariant_amended {h : Heap α} {q : Queue α} (hr : Reach h q) :
    (q.m_size = 0 ↔ q.m_front = none) ∧
    (q.m_size ≠ 0 → q.m_rear ≠ none) := by
  obtain ⟨as, l, hm⟩ := reach_models hr
  have hlen := hm.2.2.1
  have hchain := isChainB_eq ▸ hm.1
  constructor
  · constructor
    · intro hsz
      have hnil : as = [] := by
        rw [hsz] at hlen
        have : as.length = 0 := by exact_mod_cast hlen.symm
        exact List.length_eq_zero.mp this
      subst hnil
      exact isChainSeg_nil.mp hchain
    · intro hfr
      cases has : as with
      | nil =>
        subst has
        rw [hlen]
        simp
      | cons a t =>
        subst has
        obtain ⟨heq, -, -⟩ := isChainSeg_cons.mp hchain
        rw [heq] at hfr
        exact absurd hfr (by simp)
  · intro hsz
    have hasne : as ≠ [] := by
      intro hnil
      subst hnil
      simp at hlen
      exact hsz hlen
    rw [hm.2.1 hasne, List.getLast?_eq_getLast as hasne]
    simp

/-- Witness for C2's amended invariant on a reachable one-element
queue. -/
theorem c2_invariant_amended_witness :
    ((⟨some 0, some 0, 1⟩ : Queue Int).m_size = 0 ↔
      (⟨some 0, some 0, 1⟩ : Queue Int).m_front = none) ∧
    ((⟨some 0, some 0, 1⟩ : Queue Int).m_size ≠ 0 →
      (⟨some 0, some 0, 1⟩ : Queue Int).m_rear ≠ none) := by
  apply c2_invariant_amended (h := (⟨none, [⟨0, none⟩]⟩ : Heap Int))
  have hp := Reach.push (0 : Int) (Reach.init (⟨none, []⟩ : Heap Int))
  rwa [(by decide : Queue.pushBack (⟨none, []⟩ : Heap Int) Queue.mkEmpty 0 =
    ((⟨none, [⟨0, none⟩]⟩ : Heap Int), (⟨some 0, some 0, 1⟩ : Queue Int), none))]
    at hp

/-- Counterexample to C2 as stated: push one element onto an empty queue
and pop it again. The resulting state is reachable, its count is 0 and
its front is null, yet its rear is not null — it still references the
deleted node — refuting `count == 0 ⟺ rear is none`. -/
theorem c2_invariant_counterexample :
    Reach (⟨none, [⟨0, none⟩]⟩ : Heap Int) ⟨none, some 0, 0⟩ ∧
    (⟨none, some 0, 0⟩ : Queue Int).m_size = 0 ∧
    (⟨none, some 0, 0⟩ : Queue Int).m_front = none ∧
    (⟨none, some 0, 0⟩ : Queue Int).m_rear ≠ none := by
  refine ⟨?_, rfl, rfl, by simp⟩
  have hp := Reach.push (0 : Int) (Reach.init (⟨none, []⟩ : Heap Int))
  rw [(by decide : Queue.pushBack (⟨none, []⟩ : Heap Int) Queue.mkEmpty 0 =
    ((⟨none, [⟨0, none⟩]⟩ : Heap Int), (⟨some 0, some 0, 1⟩ : Queue Int), none))]
    at hp
  have hq := Reach.pop hp
  rwa [(by decide : Queue.popFront (⟨none, [⟨0, none⟩]⟩ : Heap Int)
      ⟨some 0, some 0, 1⟩ =
    ((⟨none, [⟨0, none⟩]⟩ : Heap Int), (⟨none, some 0, 0⟩ : Queue Int), none))]
    at hq
